import Mathlib

/-
Verification of the markdown-flavoured text-to-markup rendering engine of this
repository (src/index.js): escapeHtml, escapeHtmlAttribute, renderInlineMarkdown,
markdownToHtml (Semantic profile) and markdownToDivHtml (DivWrapped profile).

The engine is embedded shallowly over lists of characters.  Each JavaScript
regular expression used by the source is implemented as a dedicated scanner
with the exact matching semantics of that expression (leftmost match, greedy
character classes, lookaround where the source uses it), and the JavaScript
String.prototype.replace substitution semantics, including the dollar
substitution patterns of replacement strings, are modelled by expandRepl.
-/

set_option maxHeartbeats 4000000
set_option maxRecDepth 100000

namespace MD

/-- Whitespace in the sense of the ECMAScript production used both by
String.prototype.trim and by the regex class backslash-s: WhiteSpace together
with LineTerminator code points. -/
def jsSpace (c : Char) : Bool :=
  c == ' ' || c == '\t' || c == '\n' || c == '\r' || c == '\u000B' || c == '\u000C' ||
  c == '\u00A0' || c == '\uFEFF' || c == '\u1680' ||
  (0x2000 ≤ c.toNat && c.toNat ≤ 0x200A) ||
  c == '\u2028' || c == '\u2029' || c == '\u202F' || c == '\u205F' || c == '\u3000'

/-- LineTerminator code points: the characters a regex dot does not match. -/
def isLineTerm (c : Char) : Bool :=
  c == '\n' || c == '\r' || c == '\u2028' || c == '\u2029'

/-- Every character of the list is matchable by a regex dot (no line terminator). -/
def noTerm (s : List Char) : Bool :=
  s.all (fun c => !isLineTerm c)

/-- String.prototype.trim: drop ECMAScript whitespace at both ends. -/
def jsTrim (s : List Char) : List Char :=
  ((s.dropWhile jsSpace).reverse.dropWhile jsSpace).reverse

/-- Splitting on the regex carriage-return-optional newline, as in
text.split of the source. -/
def splitLinesAux : List Char → List Char → List (List Char)
  | [], cur => [cur.reverse]
  | '\r' :: '\n' :: rest, cur => cur.reverse :: splitLinesAux rest []
  | '\n' :: rest, cur => cur.reverse :: splitLinesAux rest []
  | c :: rest, cur => splitLinesAux rest (c :: cur)

/-- All lines of the input text. -/
def splitLines (s : List Char) : List (List Char) :=
  splitLinesAux s []

/-- Decimal digit character for a value below ten. -/
def digitChar (n : Nat) : Char :=
  Char.ofNat (48 + n)

/-- Decimal representation of a natural number, as JavaScript renders an
integral number into a template string. -/
def natToStrAux : Nat → Nat → List Char
  | 0, _ => []
  | f + 1, n =>
    if n < 10 then [digitChar n]
    else natToStrAux f (n / 10) ++ [digitChar (n % 10)]

/-- Decimal representation of a natural number. -/
def natToStr (n : Nat) : List Char :=
  natToStrAux (n + 1) n

/-- Numeric value of a digit run, as Number applied to the captured digits. -/
def natFromDigits (ds : List Char) : Nat :=
  ds.foldl (fun a c => a * 10 + (c.toNat - 48)) 0

/-- The backtick character. -/
def btick : Char := Char.ofNat 96

/-- The apostrophe character. -/
def apos : Char := Char.ofNat 39

/-- GetSubstitution of ECMAScript String.prototype.replace for a replacement
string and a pattern with no capture groups: dollar-dollar yields a dollar,
dollar-ampersand the matched text, dollar-backtick the part of the subject
before the match, dollar-apostrophe the part after it; everything else is
copied verbatim. -/
def expandRepl (pre matched post : List Char) : List Char → List Char
  | [] => []
  | [c] => [c]
  | c1 :: c2 :: r =>
    if c1 = '$' then
      if c2 = '$' then '$' :: expandRepl pre matched post r
      else if c2 = '&' then matched ++ expandRepl pre matched post r
      else if c2 = btick then pre ++ expandRepl pre matched post r
      else if c2 = apos then post ++ expandRepl pre matched post r
      else '$' :: c2 :: expandRepl pre matched post r
    else c1 :: expandRepl pre matched post (c2 :: r)

/-- Global replace of a literal nonempty pattern by a replacement string with
ECMAScript substitution semantics.  rpre is the reversed already-scanned part
of the subject, needed for the dollar-backtick substitution. -/
def replaceAllAux (pattern repl : List Char) : Nat → List Char → List Char → List Char
  | 0, _, rest => rest
  | fuel + 1, rpre, rest =>
    if pattern.isPrefixOf rest then
      let post := rest.drop pattern.length
      expandRepl rpre.reverse pattern post repl ++
        replaceAllAux pattern repl fuel (pattern.reverse ++ rpre) post
    else
      match rest with
      | [] => []
      | c :: t => c :: replaceAllAux pattern repl fuel (c :: rpre) t

/-- subject.replace of a global literal pattern. -/
def replaceAll (pattern repl s : List Char) : List Char :=
  replaceAllAux pattern repl (s.length + 1) [] s

/-- escapeHtml of the source: five successive global replacements, ampersand
first. -/
def escapeHtml (s : List Char) : List Char :=
  replaceAll [apos] "&#39;".data
    (replaceAll ['"'] "&quot;".data
      (replaceAll ['>'] "&gt;".data
        (replaceAll ['<'] "&lt;".data
          (replaceAll ['&'] "&amp;".data s))))

/-- escapeHtmlAttribute of the source: the same five replacements. -/
def escapeHtmlAttribute (s : List Char) : List Char :=
  replaceAll [apos] "&#39;".data
    (replaceAll ['"'] "&quot;".data
      (replaceAll ['>'] "&gt;".data
        (replaceAll ['<'] "&lt;".data
          (replaceAll ['&'] "&amp;".data s))))

/-- The per-character view of the Escaper: the five special characters map
to their entities and every other character to itself. -/
def escChar (c : Char) : List Char :=
  if c = '&' then "&amp;".data
  else if c = '<' then "&lt;".data
  else if c = '>' then "&gt;".data
  else if c = '"' then "&quot;".data
  else if c = apos then "&#39;".data
  else [c]

/-- The depth ceiling of renderInlineMarkdown. -/
def MAX_DEPTH : Nat := 10

/-- The placeholder token for index i, at-at-MD-i-at-at. -/
def mdTok (i : Nat) : List Char :=
  "@@MD".data ++ natToStr i ++ "@@".data

/-- The placeholder key for index i, at-at-MDPH-i-at-at. -/
def mdphTok (i : Nat) : List Char :=
  "@@MDPH".data ++ natToStr i ++ "@@".data

/-- First occurrence of a character: the part strictly before it and the part
strictly after it. -/
def splitAtChar (ch : Char) : List Char → Option (List Char × List Char)
  | [] => none
  | c :: t =>
    if c = ch then some ([], t)
    else (splitAtChar ch t).map (fun p => (c :: p.1, p.2))

/-- Scanner for the inline code-span regex: a backtick, one or more
non-backtick characters, a backtick; global replace by a placeholder whose
stored fragment wraps the escaped content in a code element. -/
def scanCode : Nat → List Char → List (List Char) → List Char × List (List Char)
  | 0, rest, phs => (rest, phs)
  | _ + 1, [], phs => ([], phs)
  | fuel + 1, c :: t, phs =>
    if c = btick then
      match splitAtChar btick t with
      | some (content, rest) =>
        if content = [] then
          let r := scanCode fuel t phs
          (btick :: r.1, r.2)
        else
          let html := "<code>".data ++ escapeHtml content ++ "</code>".data
          let tok := mdTok phs.length
          let r := scanCode fuel rest (phs ++ [html])
          (tok ++ r.1, r.2)
      | none =>
        let r := scanCode fuel t phs
        (btick :: r.1, r.2)
    else
      let r := scanCode fuel t phs
      (c :: r.1, r.2)

/-- The scheme alternative http-optional-s-colon-slash-slash of the link
regex: the consumed scheme characters and the remainder. -/
def parseScheme (u : List Char) : Option (List Char × List Char) :=
  if "https://".data.isPrefixOf u then some ("https://".data, u.drop 8)
  else if "http://".data.isPrefixOf u then some ("http://".data, u.drop 7)
  else none

/-- Parse the tail of a link match after the opening bracket: a nonempty run
of non-bracket characters, the closing bracket, a parenthesised http or https
URL made of one or more characters that are neither whitespace nor a closing
parenthesis.  Returns label, full URL and the remainder after the closing
parenthesis. -/
def parseLinkTail (t : List Char) : Option (List Char × List Char × List Char) :=
  match splitAtChar ']' t with
  | none => none
  | some (label, afterLabel) =>
    if label = [] then none
    else
      match afterLabel with
      | '(' :: u =>
        match parseScheme u with
        | none => none
        | some (scheme, afterScheme) =>
          let run := afterScheme.takeWhile (fun c => !jsSpace c && c ≠ ')')
          let rest := afterScheme.drop run.length
          if run = [] then none
          else
            match rest with
            | ')' :: r => some (label, scheme ++ run, r)
            | _ => none
      | _ => none

/-- Scanner for the link regex.  The inner function renders the label, as the
handler of the source does through the depth guard. -/
def scanLink (inner : List Char → List Char) :
    Nat → List Char → List (List Char) → List Char × List (List Char)
  | 0, rest, phs => (rest, phs)
  | _ + 1, [], phs => ([], phs)
  | fuel + 1, c :: t, phs =>
    if c = '[' then
      match parseLinkTail t with
      | some (label, href, rest) =>
        let safeHref := escapeHtmlAttribute href
        let html := "<a href=\"".data ++ safeHref ++
          "\" target=\"_blank\" rel=\"noopener noreferrer\">".data ++
          inner label ++ "</a>".data
        let tok := mdTok phs.length
        let r := scanLink inner fuel rest (phs ++ [html])
        (tok ++ r.1, r.2)
      | none =>
        let r := scanLink inner fuel t phs
        ('[' :: r.1, r.2)
    else
      let r := scanLink inner fuel t phs
      (c :: r.1, r.2)

/-- Scanner for a doubled style marker (double asterisk or double
underscore) around a nonempty run free of the marker; the inner text is
rendered by the inner function and wrapped in the given tag. -/
def scanDouble (mark : Char) (openTag closeTag : List Char)
    (inner : List Char → List Char) :
    Nat → List Char → List (List Char) → List Char × List (List Char)
  | 0, rest, phs => (rest, phs)
  | _ + 1, [], phs => ([], phs)
  | fuel + 1, c :: t, phs =>
    if c = mark then
      match t with
      | c2 :: t2 =>
        if c2 = mark then
          let content := t2.takeWhile (fun x => x ≠ mark)
          let rest := t2.drop content.length
          if content ≠ [] ∧ [mark, mark].isPrefixOf rest then
            let html := openTag ++ inner content ++ closeTag
            let tok := mdTok phs.length
            let res := scanDouble mark openTag closeTag inner fuel (rest.drop 2) (phs ++ [html])
            (tok ++ res.1, res.2)
          else
            let res := scanDouble mark openTag closeTag inner fuel (c2 :: t2) phs
            (c :: res.1, res.2)
        else
          let res := scanDouble mark openTag closeTag inner fuel (c2 :: t2) phs
          (c :: res.1, res.2)
      | [] => ([c], phs)
    else
      let res := scanDouble mark openTag closeTag inner fuel t phs
      (c :: res.1, res.2)

/-- Scanner for a single style marker with negative lookbehind and negative
lookahead on the same marker, as the italic regexes of the source.  prev is
the original subject character before the current position. -/
def scanSingle (mark : Char) (openTag closeTag : List Char)
    (inner : List Char → List Char) :
    Nat → Option Char → List Char → List (List Char) → List Char × List (List Char)
  | 0, _, rest, phs => (rest, phs)
  | _ + 1, _, [], phs => ([], phs)
  | fuel + 1, prev, c :: t, phs =>
    if c = mark ∧ prev ≠ some mark then
      let content := t.takeWhile (fun x => x ≠ mark)
      let rest := t.drop content.length
      if content ≠ [] ∧ rest.head? = some mark ∧ (rest.drop 1).head? ≠ some mark then
        let html := openTag ++ inner content ++ closeTag
        let tok := mdTok phs.length
        let res := scanSingle mark openTag closeTag inner fuel (some mark) (rest.drop 1) (phs ++ [html])
        (tok ++ res.1, res.2)
      else
        let res := scanSingle mark openTag closeTag inner fuel (some c) t phs
        (c :: res.1, res.2)
    else
      let res := scanSingle mark openTag closeTag inner fuel (some c) t phs
      (c :: res.1, res.2)

/-- Substitute every placeholder token by its key, in index order: the first
resolution pass of renderInlineMarkdown. -/
def passKeysAux : Nat → List (List Char) → List Char → List Char
  | _, [], e => e
  | i, _ :: rest, e => passKeysAux (i + 1) rest (replaceAll (mdTok i) (mdphTok i) e)

/-- Substitute every key by its stored fragment, in index order: the second
resolution pass of renderInlineMarkdown. -/
def passHtmlAux : Nat → List (List Char) → List Char → List Char
  | _, [], e => e
  | i, h :: rest, e => passHtmlAux (i + 1) rest (replaceAll (mdphTok i) h e)

/-- The body of renderInlineMarkdown for one level: run the protected-fragment
and style transformers in source order, escape the remaining text, then run
the two placeholder resolution passes.  The inner function is the
depth-guarded nested renderer the handlers close over. -/
def renderCore (inner : List Char → List Char) (text : List Char) : List Char :=
  if jsTrim text = [] then []
  else
    let s1 := scanCode (text.length + 1) text []
    let s2 := scanLink inner (s1.1.length + 1) s1.1 s1.2
    let s3 := scanDouble '*' "<strong>".data "</strong>".data inner (s2.1.length + 1) s2.1 s2.2
    let s4 := scanDouble '_' "<strong>".data "</strong>".data inner (s3.1.length + 1) s3.1 s3.2
    let s5 := scanSingle '*' "<em>".data "</em>".data inner (s4.1.length + 1) none s4.1 s4.2
    let s6 := scanSingle '_' "<em>".data "</em>".data inner (s5.1.length + 1) none s5.1 s5.2
    let escaped := escapeHtml s6.1
    passHtmlAux 0 s6.2 (passKeysAux 0 s6.2 escaped)

/-- renderInlineMarkdown with an explicit recursion budget.  The budget is a
Lean artefact only: the depth guard of the source bounds the call tree at
eleven levels, so a budget of twelve is never exhausted; on exhaustion the
input is escaped. -/
def renderInlineAux : Nat → List Char → Nat → List Char
  | 0, text, _ => escapeHtml text
  | gas + 1, text, depth =>
    renderCore
      (fun v => if depth < MAX_DEPTH then renderInlineAux gas v (depth + 1) else escapeHtml v)
      text

/-- renderInlineMarkdown at a given depth. -/
def renderInlineMarkdownD (text : List Char) (depth : Nat) : List Char :=
  renderInlineAux 12 text depth

/-- renderInlineMarkdown at the default depth zero. -/
def renderInlineMarkdown (text : List Char) : List Char :=
  renderInlineMarkdownD text 0

/-- Behaviour of renderInlineMarkdown at or above the depth ceiling: the same
single level of pattern recognition, with every nested fragment escaped
rather than recursively rendered. -/
def renderInlineCeiling (text : List Char) : List Char :=
  renderCore escapeHtml text


/-- A dash-like character: hyphen, en dash or em dash. -/
def isDashChar (c : Char) : Bool :=
  c == '-' || c == '\u2013' || c == '\u2014'

/-- The Semantic heading regex: one to six hash marks, optional whitespace,
then the rest of the line.  Returns the clamped level and the content group. -/
def headingMatchSem (tl : List Char) : Option (Nat × List Char) :=
  let hashes := tl.takeWhile (fun c => c = '#')
  if hashes = [] then none
  else
    let g1len := min hashes.length 6
    let rest := (tl.drop g1len).dropWhile jsSpace
    if noTerm rest then some (g1len, rest) else none

/-- The DivWrapped heading regex: one to six hash marks, mandatory
whitespace, then the rest of the line. -/
def headingMatchDiv (tl : List Char) : Option (Nat × List Char) :=
  let hashes := tl.takeWhile (fun c => c = '#')
  if hashes = [] ∨ 6 < hashes.length then none
  else
    let t := tl.drop hashes.length
    let sp := t.takeWhile jsSpace
    if sp = [] then none
    else
      let rest := t.drop sp.length
      if noTerm rest then some (hashes.length, rest) else none

/-- The divider regex: a line made entirely of three or more hyphens,
underscores or asterisks. -/
def dividerMatch (tl : List Char) : Bool :=
  decide (3 ≤ tl.length) &&
    (tl.all (fun c => c == '-') || tl.all (fun c => c == '_') || tl.all (fun c => c == '*'))

/-- The blockquote regex: a greater-than sign, at most one whitespace
character, then the rest of the line. -/
def blockquoteMatch (tl : List Char) : Option (List Char) :=
  match tl with
  | '>' :: t =>
    match t with
    | [] => some []
    | c :: r =>
      if jsSpace c then (if noTerm r then some r else none)
      else (if noTerm (c :: r) then some (c :: r) else none)
  | _ => none

/-- The ordered-item regex: digits, a dot or closing parenthesis, mandatory
whitespace, then the item text. -/
def orderedMatch (tl : List Char) : Option (Nat × List Char) :=
  let ds := tl.takeWhile Char.isDigit
  if ds = [] then none
  else
    match tl.drop ds.length with
    | p :: t2 =>
      if p = '.' ∨ p = ')' then
        let sp := t2.takeWhile jsSpace
        if sp = [] then none
        else
          let rest := t2.drop sp.length
          if noTerm rest then some (natFromDigits ds, rest) else none
      else none
    | [] => none

/-- The unordered-item regex: a hyphen, asterisk or plus, mandatory
whitespace, then the item text. -/
def unorderedMatch (tl : List Char) : Option (List Char) :=
  match tl with
  | m :: t =>
    if m = '-' ∨ m = '*' ∨ m = '+' then
      let sp := t.takeWhile jsSpace
      if sp = [] then none
      else
        let rest := t.drop sp.length
        if noTerm rest then some rest else none
    else none
  | [] => none

/-- A line consisting solely of a single dash-like character. -/
def singleDashMatch (tl : List Char) : Bool :=
  match tl with
  | [c] => isDashChar c
  | _ => false

/-- The dash-paragraph regex: a dash-like character, optional whitespace,
then the rest of the line. -/
def dashParaMatch (tl : List Char) : Option (List Char) :=
  match tl with
  | c :: t =>
    if isDashChar c then
      let rest := t.dropWhile jsSpace
      if noTerm rest then some rest else none
    else none
  | [] => none

/-- A block of the segmented document: the profile-independent content the
two converters accumulate before rendering. -/
inductive Blk where
  | heading (level : Nat) (content : List Char)
  | para (lines : List (List Char))
  | list (ordered : Bool) (items : List (Option Nat × List Char))
  | quote (content : List Char)
  | divider
deriving DecidableEq, Repr

/-- Segmentation state: the open paragraph buffer, the open list context and
the blocks emitted so far, in emission order. -/
structure SegState where
  paraBuf : List (List Char)
  listCtx : Option (Bool × List (Option Nat × List Char))
  blocks : List Blk
deriving DecidableEq, Repr

/-- flushParagraph of the source at segmentation granularity: a nonempty
buffer becomes a paragraph block. -/
def flushParagraphS (st : SegState) : SegState :=
  if st.paraBuf = [] then st
  else { st with blocks := st.blocks ++ [Blk.para st.paraBuf], paraBuf := [] }

/-- flushList of the source at segmentation granularity: a context with at
least one item becomes a list block. -/
def flushListS (st : SegState) : SegState :=
  match st.listCtx with
  | none => st
  | some (ty, items) =>
    if items = [] then { st with listCtx := none }
    else { st with blocks := st.blocks ++ [Blk.list ty items], listCtx := none }

/-- ensureList of the source: flush paragraph then list when the open list
context is absent or of the other kind, and open a fresh context. -/
def ensureListS (ty : Bool) (st : SegState) : SegState :=
  match st.listCtx with
  | some (ty2, _) =>
    if ty2 = ty then st
    else { flushListS (flushParagraphS st) with listCtx := some (ty, []) }
  | none => { flushListS (flushParagraphS st) with listCtx := some (ty, []) }

/-- Append an item to the open list context. -/
def pushItem (it : Option Nat × List Char) (st : SegState) : SegState :=
  match st.listCtx with
  | some (ty, items) => { st with listCtx := some (ty, items ++ [it]) }
  | none => st

/-- The list, dash and default branches of the line loop, identical in the
two converters: ordered and unordered items with nonempty text, the single
dash, the dash paragraph and the plain paragraph line. -/
def stepListPart (st : SegState) (tl : List Char) : SegState :=
  match
    (match orderedMatch tl with
     | some (n, c) => if jsTrim c = [] then none else some (n, c)
     | none => none) with
  | some (n, c) => pushItem (some n, c) (ensureListS true st)
  | none =>
    match
      (match unorderedMatch tl with
       | some c => if jsTrim c = [] then none else some c
       | none => none) with
    | some c => pushItem (none, c) (ensureListS false st)
    | none =>
      if singleDashMatch tl then flushParagraphS st
      else
        match dashParaMatch tl with
        | some r =>
          if r = [] then
            let st1 := flushListS st
            { st1 with paraBuf := st1.paraBuf ++ [tl] }
          else
            let st1 := flushParagraphS st
            { st1 with paraBuf := st1.paraBuf ++ [r] }
        | none =>
          let st1 := flushListS st
          { st1 with paraBuf := st1.paraBuf ++ [tl] }

/-- One iteration of the line loop shared by both converters.  The heading
matcher is the only regex on which the two profiles differ, and only the
DivWrapped profile records blank lines inside a list as empty items. -/
def stepLine (hm : List Char → Option (Nat × List Char)) (blankPushes : Bool)
    (st : SegState) (rawLine : List Char) : SegState :=
  let tl := jsTrim rawLine
  if tl = [] then
    match st.listCtx with
    | some (ty, items) =>
      if blankPushes then { st with listCtx := some (ty, items ++ [(none, [])]) } else st
    | none => flushParagraphS st
  else
    match hm tl with
    | some (lvl, content) =>
      let st1 := flushListS (flushParagraphS st)
      { st1 with blocks := st1.blocks ++ [Blk.heading (min lvl 6) content] }
    | none =>
      if dividerMatch tl then
        let st1 := flushListS (flushParagraphS st)
        { st1 with blocks := st1.blocks ++ [Blk.divider] }
      else
        match blockquoteMatch tl with
        | some q =>
          let st1 := flushListS (flushParagraphS st)
          { st1 with blocks := st1.blocks ++ [Blk.quote q] }
        | none => stepListPart st tl

/-- Run the line loop and the trailing paragraph and list flushes. -/
def segLines (hm : List Char → Option (Nat × List Char)) (blankPushes : Bool)
    (lines : List (List Char)) : List Blk :=
  (flushListS (flushParagraphS (lines.foldl (stepLine hm blankPushes) ⟨[], none, []⟩))).blocks

/-- Block segmentation of markdownToHtml. -/
def segSem (lines : List (List Char)) : List Blk :=
  segLines headingMatchSem false lines

/-- Block segmentation of markdownToDivHtml. -/
def segDiv (lines : List (List Char)) : List Blk :=
  segLines headingMatchDiv true lines

/-- An item whose content is nonempty after trimming: the filter both
renderers apply before emitting list items. -/
def nonEmptyItem (it : Option Nat × List Char) : Bool :=
  !(jsTrim it.2).isEmpty

/-- The per-item value attribute of both renderers: present exactly when the
list is ordered and the ordinal is truthy and breaks the start-plus-index
sequence. -/
def listValueAttr (isOrdered : Bool) (ordinal : Option Nat) (startValue i : Nat) : List Char :=
  match ordinal with
  | some o =>
    if isOrdered ∧ o ≠ 0 ∧ o ≠ startValue + i then
      " value=\"".data ++ natToStr o ++ "\"".data
    else []
  | none => []

/-- The start value of both renderers: the truthy ordinal of the first
unfiltered item of an ordered list, with fallback one. -/
def listStartValue (isOrdered : Bool) (items : List (Option Nat × List Char)) : Nat :=
  if isOrdered then
    match items with
    | (some o, _) :: _ => if o ≠ 0 then o else 1
    | _ => 1
  else 1

/-- The list start attribute of both renderers. -/
def listStartAttr (isOrdered : Bool) (startValue : Nat) : List Char :=
  if isOrdered ∧ startValue ≠ 1 then " start=\"".data ++ natToStr startValue ++ "\"".data
  else []

/-- Test of the colon-suffix regex used by the Semantic nesting heuristic. -/
def colonSuffixTest (s : List Char) : Bool :=
  match s.reverse.dropWhile jsSpace with
  | c :: _ => c == ':'
  | [] => false

/-- Replacement of the first colon-suffix match by the empty string. -/
def stripColonSuffix : List Char → List Char
  | [] => []
  | c :: t => if c = ':' ∧ t.all jsSpace then [] else c :: stripColonSuffix t

/-- The Semantic item loop, including the one-level colon-nesting heuristic
that folds the following item into the current one. -/
def semItemsLoop (isOrdered : Bool) (startValue : Nat) :
    Nat → List (Option Nat × List Char) → List Char
  | _, [] => []
  | i, [item] =>
    let valueAttr := listValueAttr isOrdered item.1 startValue i
    "<li".data ++ valueAttr ++ ">".data ++ renderInlineMarkdown item.2 ++ "</li>".data ++
      semItemsLoop isOrdered startValue (i + 1) []
  | i, item :: next :: rest2 =>
    let valueAttr := listValueAttr isOrdered item.1 startValue i
    if !isOrdered && colonSuffixTest (jsTrim item.2) then
      "<li>".data ++ renderInlineMarkdown (stripColonSuffix (jsTrim item.2)) ++
        "<ul style=\"list-style-type: circle; padding-left: 20px;\"><li>".data ++
        renderInlineMarkdown next.2 ++ "</li></ul>".data ++ "</li>".data ++
        semItemsLoop isOrdered startValue (i + 2) rest2
    else
      "<li".data ++ valueAttr ++ ">".data ++ renderInlineMarkdown item.2 ++ "</li>".data ++
        semItemsLoop isOrdered startValue (i + 1) (next :: rest2)

/-- The DivWrapped item loop: a flat map over the filtered items. -/
def divItemsLoop (isOrdered : Bool) (startValue : Nat) :
    Nat → List (Option Nat × List Char) → List Char
  | _, [] => []
  | i, item :: rest =>
    let valueAttr := listValueAttr isOrdered item.1 startValue i
    "<li".data ++ valueAttr ++ ">".data ++ renderInlineMarkdown item.2 ++ "</li>".data ++
      divItemsLoop isOrdered startValue (i + 1) rest

/-- The Semantic list segment, or nothing when every item is dropped. -/
def semListSegment (isOrdered : Bool) (items : List (Option Nat × List Char)) :
    Option (List Char) :=
  let startValue := listStartValue isOrdered items
  let startAttr := listStartAttr isOrdered startValue
  let styleAttr :=
    if isOrdered then " style=\"padding-left: 25px;\"".data
    else " style=\"list-style-type: disc; padding-left: 25px;\"".data
  let filtered := items.filter nonEmptyItem
  let itemsStr := semItemsLoop isOrdered startValue 0 filtered
  if itemsStr = [] then none
  else
    let tag := if isOrdered then "ol".data else "ul".data
    some ("<".data ++ tag ++ startAttr ++ styleAttr ++ ">".data ++ itemsStr ++
      "</".data ++ tag ++ ">".data)

/-- The DivWrapped list segment, or nothing when every item is dropped. -/
def divListSegment (isOrdered : Bool) (items : List (Option Nat × List Char)) :
    Option (List Char) :=
  let className :=
    if isOrdered then "list list-ordered".data else "list list-unordered".data
  let startValue := listStartValue isOrdered items
  let startAttr := listStartAttr isOrdered startValue
  let filtered := items.filter nonEmptyItem
  let itemsStr := divItemsLoop isOrdered startValue 0 filtered
  if itemsStr = [] then none
  else
    let tag := if isOrdered then "ol".data else "ul".data
    some ("<div class=\"".data ++ className ++ "\"><".data ++ tag ++ startAttr ++ ">".data ++
      itemsStr ++ "</".data ++ tag ++ "></div>".data)

/-- Join a list of fragments with a separator. -/
def joinSep (sep : List Char) : List (List Char) → List Char
  | [] => []
  | [x] => x
  | x :: y :: rest => x ++ sep ++ joinSep sep (y :: rest)

/-- The Semantic paragraph segment: trimmed nonempty lines, each rendered
inline, joined by a break element. -/
def semParaSegment (lines : List (List Char)) : Option (List Char) :=
  let rendered := ((lines.map jsTrim).filter (fun l => !l.isEmpty)).map renderInlineMarkdown
  if rendered = [] then none
  else some ("<p>".data ++ joinSep "<br />\n".data rendered ++ "</p>".data)

/-- Whitespace-run collapsing, the global replace of runs by one space. -/
def collapseWsAux : Bool → List Char → List Char
  | _, [] => []
  | inRun, c :: t =>
    if jsSpace c then
      (if inRun then collapseWsAux true t else ' ' :: collapseWsAux true t)
    else c :: collapseWsAux false t

/-- Whitespace-run collapsing from an initial non-run state. -/
def collapseWs (s : List Char) : List Char :=
  collapseWsAux false s

/-- The DivWrapped paragraph segment: lines joined by spaces, whitespace
normalized, trimmed, rendered inline in one container. -/
def divParaSegment (lines : List (List Char)) : Option (List Char) :=
  let textContent := jsTrim (collapseWs (joinSep [' '] lines))
  if textContent = [] then none
  else some ("<div class=\"paragraph\">".data ++ renderInlineMarkdown textContent ++ "</div>".data)

/-- Markup of one block under the Semantic profile. -/
def renderSemBlock : Blk → Option (List Char)
  | Blk.heading lvl content =>
    some ("<h".data ++ natToStr lvl ++ ">".data ++ renderInlineMarkdown content ++
      "</h".data ++ natToStr lvl ++ ">".data)
  | Blk.para lines => semParaSegment lines
  | Blk.list ord items => semListSegment ord items
  | Blk.quote q => some ("<blockquote>".data ++ renderInlineMarkdown q ++ "</blockquote>".data)
  | Blk.divider => some "<hr />".data

/-- Markup of one block under the DivWrapped profile. -/
def renderDivBlock : Blk → Option (List Char)
  | Blk.heading lvl content =>
    some ("<div class=\"heading heading-".data ++ natToStr lvl ++ "\">".data ++
      renderInlineMarkdown content ++ "</div>".data)
  | Blk.para lines => divParaSegment lines
  | Blk.list ord items => divListSegment ord items
  | Blk.quote q => some ("<div class=\"blockquote\">".data ++ renderInlineMarkdown q ++ "</div>".data)
  | Blk.divider => some "<div class=\"divider\"></div>".data

/-- Concatenation of all fragments, the join of the segments array. -/
def joinAll : List (List Char) → List Char
  | [] => []
  | x :: rest => x ++ joinAll rest

/-- markdownToHtml of the source: the no-value guard, segmentation, Semantic
rendering of each block, concatenation. -/
def markdownToHtml (input : Option String) : Option String :=
  match input with
  | none => none
  | some s =>
    if jsTrim s.data = [] then none
    else some (String.mk (joinAll ((segSem (splitLines s.data)).filterMap renderSemBlock)))

/-- markdownToDivHtml of the source: the no-value guard, segmentation,
DivWrapped rendering of each block, concatenation. -/
def markdownToDivHtml (input : Option String) : Option String :=
  match input with
  | none => none
  | some s =>
    if jsTrim s.data = [] then none
    else some (String.mk (joinAll ((segDiv (splitLines s.data)).filterMap renderDivBlock)))

/-- A block with the trim-empty list items removed: the view under which the
renderers observe a list block. -/
def dropEmptyItems : Blk → Blk
  | Blk.list ord items => Blk.list ord (items.filter nonEmptyItem)
  | b => b

/-- Substring test: some position of the subject starts with the pattern. -/
def containsSeq (pat : List Char) : List Char → Bool
  | [] => pat.isPrefixOf []
  | c :: t => pat.isPrefixOf (c :: t) || containsSeq pat t


/-- One of the five characters the Escaper neutralizes. -/
def specialChar (c : Char) : Bool :=
  c == '<' || c == '>' || c == '&' || c == '"' || c == apos

/-- The five entity spellings the Escaper emits. -/
def entList : List (List Char) :=
  ["&amp;".data, "&lt;".data, "&gt;".data, "&quot;".data, "&#39;".data]

/-- The constant markup fragments the renderer emits around escaped text:
the fixed tag vocabulary. -/
def vocabList : List (List Char) :=
  ["<code>".data, "</code>".data, "<strong>".data, "</strong>".data,
   "<em>".data, "</em>".data,
   "<a href=\"".data, "\" target=\"_blank\" rel=\"noopener noreferrer\">".data, "</a>".data,
   "<p>".data, "</p>".data, "<br />".data, "<hr />".data,
   "<blockquote>".data, "</blockquote>".data,
   "</ol>".data, "</ul>".data, "</li>".data, "<li>".data,
   "<ul style=\"list-style-type: circle; padding-left: 20px;\">".data,
   "<div class=\"paragraph\">".data, "</div>".data,
   "<div class=\"divider\"></div>".data, "<div class=\"blockquote\">".data]

/-- A nonempty run of decimal digits, as produced by natToStr. -/
def digitsOk (ds : List Char) : Prop :=
  ds ≠ [] ∧ ds.all Char.isDigit

/-- A list tag name. -/
def tagOk (tag : List Char) : Prop :=
  tag = "ol".data ∨ tag = "ul".data

/-- The optional start attribute of a list opening. -/
def startAttrOk (sa : List Char) : Prop :=
  sa = [] ∨ ∃ ds, digitsOk ds ∧ sa = " start=\"".data ++ ds ++ "\"".data

/-- The optional value attribute of a list item opening. -/
def valueAttrOk (va : List Char) : Prop :=
  va = [] ∨ ∃ ds, digitsOk ds ∧ va = " value=\"".data ++ ds ++ "\"".data

/-- The per-kind style attribute of a Semantic list opening. -/
def styleOk (style : List Char) : Prop :=
  style = " style=\"padding-left: 25px;\"".data ∨
  style = " style=\"list-style-type: disc; padding-left: 25px;\"".data

/-- The class attribute value of a DivWrapped list container. -/
def clsOk (cls : List Char) : Prop :=
  cls = "list list-ordered".data ∨ cls = "list list-unordered".data

/-- The injection-safety grammar: a string is safe when it is a
concatenation of plain characters that are none of the five
HTML-special characters, entity spellings emitted by the Escaper, and
fixed-vocabulary markup fragments emitted by the renderer itself (whose
attribute slots hold only digits or fixed names).  Every special
character of a safe string therefore lies inside a renderer-emitted
fragment or inside an entity; no input-derived special character occurs
unescaped. -/
inductive SafeS : List Char → Prop where
  | nil : SafeS []
  | plain (c : Char) (t : List Char) :
      specialChar c = false → SafeS t → SafeS (c :: t)
  | ent (e t : List Char) : e ∈ entList → SafeS t → SafeS (e ++ t)
  | vocab (v t : List Char) : v ∈ vocabList → SafeS t → SafeS (v ++ t)
  | semList (tag sa style t : List Char) :
      tagOk tag → startAttrOk sa → styleOk style → SafeS t →
      SafeS ("<".data ++ tag ++ sa ++ style ++ ">".data ++ t)
  | divList (cls tag sa t : List Char) :
      clsOk cls → tagOk tag → startAttrOk sa → SafeS t →
      SafeS ("<div class=\"".data ++ cls ++ "\"><".data ++ tag ++ sa ++ ">".data ++ t)
  | liOpen (va t : List Char) :
      valueAttrOk va → SafeS t → SafeS ("<li".data ++ va ++ ">".data ++ t)
  | hOpen (ds t : List Char) :
      digitsOk ds → SafeS t → SafeS ("<h".data ++ ds ++ ">".data ++ t)
  | hClose (ds t : List Char) :
      digitsOk ds → SafeS t → SafeS ("</h".data ++ ds ++ ">".data ++ t)
  | divHeading (ds t : List Char) :
      digitsOk ds → SafeS t →
      SafeS ("<div class=\"heading heading-".data ++ ds ++ "\">".data ++ t)

/-- Safety of an optional output: the no-value result is vacuously safe. -/
def SafeOpt : Option String → Prop
  | none => True
  | some s => SafeS s.data



/-- Characters a placeholder token or key is made of. -/
def tokenChar (c : Char) : Bool :=
  c == '@' || c == 'M' || c == 'D' || c == 'P' || c == 'H' || c.isDigit

/-- Relation between the open list contexts of the two segmenters: equal
kind, the DivWrapped items reduce to the Semantic items once blank-line
items are filtered out, and the Semantic items are all nonempty. -/
def relCtx : Option (Bool × List (Option Nat × List Char)) →
    Option (Bool × List (Option Nat × List Char)) → Prop
  | none, none => True
  | some (ty1, it1), some (ty2, it2) =>
    ty2 = ty1 ∧ it1.filter nonEmptyItem = it1 ∧ it2.filter nonEmptyItem = it1 ∧ it1 ≠ []
  | _, _ => False

/-- Invariant tying a Semantic segmentation state to a DivWrapped one. -/
def Inv (a b : SegState) : Prop :=
  a.paraBuf = b.paraBuf ∧ relCtx a.listCtx b.listCtx ∧
    a.blocks.map dropEmptyItems = b.blocks.map dropEmptyItems


/-- A grammar unit other than a plain character or an entity: it prepends
safely, contains neither a dollar nor an at sign, and starts with a
character that is neither a substitution trigger nor a token character. -/
def UnitP (u : List Char) : Prop :=
  (∀ t, SafeS t → SafeS (u ++ t)) ∧ '$' ∉ u ∧ '@' ∉ u ∧
    ∃ c u2, u = c :: u2 ∧ c ≠ '$' ∧ c ≠ '&' ∧ c ≠ btick ∧ c ≠ apos ∧ tokenChar c = false ∧
      (c = '<' ∨ c = '"')

/-! Helper lemmas. -/

theorem dropWhile_all {p : Char → Bool} {l : List Char} (h : ∀ c ∈ l, p c) :
    l.dropWhile p = [] := by
  induction l with
  | nil => rfl
  | cons c t ih =>
    rw [List.dropWhile_cons, if_pos (h c (by simp))]
    exact ih (fun x hx => h x (by simp [hx]))

theorem jsTrim_nil_of_all_space {l : List Char} (h : ∀ c ∈ l, jsSpace c) :
    jsTrim l = [] := by
  unfold jsTrim
  rw [dropWhile_all h]
  rfl

theorem all_space_of_jsTrim_nil {l : List Char} (h : jsTrim l = []) :
    ∀ c ∈ l, jsSpace c := by
  unfold jsTrim at h
  rw [List.reverse_eq_nil_iff, List.dropWhile_eq_nil_iff] at h
  intro c hc
  have hsplit : c ∈ l.takeWhile jsSpace ++ l.dropWhile jsSpace := by
    rw [List.takeWhile_append_dropWhile]; exact hc
  rcases List.mem_append.mp hsplit with h3 | h3
  · exact List.mem_takeWhile_imp h3
  · exact h c (by simpa using h3)

/-! Claim theorems: concrete evaluations. -/

/-- C2.  End-to-end example: the Semantic renderer maps the sample line to
exactly the markup string of the specification. -/
theorem C2_end_to_end :
    markdownToHtml (some "Hello **world**, see `code` and [site](https://x.io).") =
      some "<p>Hello <strong>world</strong>, see <code>code</code> and <a href=\"https://x.io\" target=\"_blank\" rel=\"noopener noreferrer\">site</a>.</p>" := by
  decide

/-- C3.  Evaluation of the renderer at the failing input: a code span nested
inside an italic span leaves the literal placeholder token at-at-MD0-at-at in
the output, because the second resolution pass substitutes stored fragments
in creation order and never revisits a fragment spliced in by a later
substitution. -/
theorem C3_placeholder_leak :
    markdownToHtml (some "*a `b` c*") = some "<p><em>a @@MD0@@ c</em></p>" := by
  decide

/-- C5 counterexample.  The clamp example of the claim is not what the code
produces: the seventh marker is not absorbed. -/
theorem C5_counterexample :
    markdownToHtml (some "####### Too Deep") ≠ some "<h6>Too Deep</h6>" := by
  decide

/-- C5 amended.  A heading marker run longer than six is clamped to level six
in the Semantic profile, but the markers beyond the sixth stay in the heading
text: the example line renders as an h6 whose content keeps the seventh
marker. -/
theorem C5_heading_clamp :
    markdownToHtml (some "####### Too Deep") = some "<h6># Too Deep</h6>" := by
  decide

/-- C6 counterexample.  The two profiles do not classify every line
identically: a heading marker with no following whitespace is a heading for
the Semantic segmenter and paragraph text for the DivWrapped one. -/
theorem C6_counterexample :
    segSem (splitLines "#".data) = [Blk.heading 1 []] ∧
    segDiv (splitLines "#".data) = [Blk.para ["#".data]] ∧
    ([Blk.heading 1 []] : List Blk) ≠ [Blk.para ["#".data]] ∧
    markdownToHtml (some "#") = some "<h1></h1>" ∧
    markdownToDivHtml (some "#") = some "<div class=\"paragraph\">#</div>" := by
  refine ⟨by decide, by decide, by decide, by decide, by decide⟩

/-- C7 counterexample.  A line consisting solely of a greater-than sign does
produce an empty blockquote block in both profiles. -/
theorem C7_counterexample :
    markdownToHtml (some ">") = some "<blockquote></blockquote>" ∧
    markdownToDivHtml (some ">") = some "<div class=\"blockquote\"></div>" := by
  refine ⟨by decide, by decide⟩

/-- C8 counterexample.  An explicit first ordinal of zero differs from one,
yet the rendered list carries no start attribute, because the renderer tests
the ordinal for truthiness and zero is falsy. -/
theorem C8_counterexample :
    markdownToHtml (some "0. Zero") =
      some "<ol style=\"padding-left: 25px;\"><li>Zero</li></ol>" ∧
    containsSeq " start=".data "<ol style=\"padding-left: 25px;\"><li>Zero</li></ol>".data = false := by
  refine ⟨by decide, by decide⟩

/-- C9 counterexample.  The markup fragment quoted by the claim does not
occur in the Semantic output for the colon-nesting example: the emitted
list elements carry fixed style attributes the quoted fragment omits. -/
theorem C9_counterexample :
    markdownToHtml (some "- Great features:\n- Fast\n- Light") =
      some "<ul style=\"list-style-type: disc; padding-left: 25px;\"><li>Great features<ul style=\"list-style-type: circle; padding-left: 20px;\"><li>Fast</li></ul></li><li>Light</li></ul>" ∧
    containsSeq "<li>Great features<ul><li>Fast</li></ul></li><li>Light</li>".data
      "<ul style=\"list-style-type: disc; padding-left: 25px;\"><li>Great features<ul style=\"list-style-type: circle; padding-left: 20px;\"><li>Fast</li></ul></li><li>Light</li></ul>".data = false := by
  refine ⟨by decide, by decide⟩

/-- C9 amended.  Colon-nesting is Semantic-only: the item after the
colon-terminated item becomes a nested single-item sub-list inside that
item, with the trailing colon stripped and the third item remaining a
top-level item, the list elements carrying the fixed style attributes of the
renderer; the DivWrapped profile renders the same input as three flat items
with no nesting and the colon kept. -/
theorem C9_colon_nesting :
    markdownToHtml (some "- Great features:\n- Fast\n- Light") =
      some "<ul style=\"list-style-type: disc; padding-left: 25px;\"><li>Great features<ul style=\"list-style-type: circle; padding-left: 20px;\"><li>Fast</li></ul></li><li>Light</li></ul>" ∧
    markdownToDivHtml (some "- Great features:\n- Fast\n- Light") =
      some "<div class=\"list list-unordered\"><ul><li>Great features:</li><li>Fast</li><li>Light</li></ul></div>" := by
  refine ⟨by decide, by decide⟩

/-- C10.  Both converters return the no-value result exactly when the input
is absent or trims to the empty string; every other input yields a string,
and that string can itself be empty: a single dash yields the empty string
from both converters. -/
theorem C10_no_value (input : Option String) :
    ((markdownToHtml input = none) ↔ (input = none ∨ jsTrim (input.getD "").data = [])) ∧
    ((markdownToDivHtml input = none) ↔ (input = none ∨ jsTrim (input.getD "").data = [])) ∧
    markdownToHtml (some "-") = some "" ∧
    markdownToDivHtml (some "-") = some "" := by
  refine ⟨?_, ?_, by decide, by decide⟩
  · cases input with
    | none => simp [markdownToHtml]
    | some s =>
      simp only [markdownToHtml, Option.getD]
      by_cases h : jsTrim s.data = [] <;> simp [h]
  · cases input with
    | none => simp [markdownToDivHtml]
    | some s =>
      simp only [markdownToDivHtml, Option.getD]
      by_cases h : jsTrim s.data = [] <;> simp [h]


theorem collapseWsAux_space : ∀ (s : List Char), (∀ c ∈ s, jsSpace c) →
    ∀ b, ∀ c ∈ collapseWsAux b s, jsSpace c := by
  intro s
  induction s with
  | nil => intro _ b c hc; cases hc
  | cons x t ih =>
    intro h b c hc
    have hx : jsSpace x := h x (by simp)
    have ht : ∀ d ∈ t, jsSpace d := fun d hd => h d (by simp [hd])
    rw [collapseWsAux, if_pos hx] at hc
    cases b with
    | true => exact ih ht true c hc
    | false =>
      rcases List.mem_cons.mp hc with h1 | h1
      · subst h1; decide
      · exact ih ht true c h1

/-! Depth ceiling: claim C4. -/

theorem renderInlineAux_ceiling (g : Nat) (text : List Char) (d : Nat)
    (h : MAX_DEPTH ≤ d) :
    renderInlineAux (g + 1) text d = renderInlineCeiling text := by
  have hfun : (fun v => if d < MAX_DEPTH then renderInlineAux g v (d + 1) else escapeHtml v)
      = escapeHtml := by
    funext v
    rw [if_neg (by omega)]
  rw [renderInlineAux, hfun, renderInlineCeiling]

/-- C4 counterexample.  At depth eleven the renderer still performs pattern
recognition: a bold span is still transformed, so the result is not the fully
escaped input (which the escaper leaves unchanged here). -/
theorem C4_counterexample :
    renderInlineMarkdownD "**a**".data 11 = "<strong>a</strong>".data ∧
    escapeHtml "**a**".data = "**a**".data ∧
    "<strong>a</strong>".data ≠ "**a**".data := by
  refine ⟨by decide, by decide, by decide⟩

/-- C4 amended.  At or beyond the fixed ceiling of 10 the depth no longer
matters: the renderer still applies one level of pattern recognition, but
every nested fragment (link label, bold or italic inner text) is escaped
rather than recursively rendered, so the result coincides with the
non-recursive ceiling renderer; empty or whitespace-only input still yields
the empty string. -/
theorem C4_depth_ceiling (text : List Char) (d : Nat) (h : MAX_DEPTH ≤ d) :
    renderInlineMarkdownD text d = renderInlineCeiling text ∧
    (jsTrim text = [] → renderInlineCeiling text = []) := by
  constructor
  · exact renderInlineAux_ceiling 11 text d h
  · intro ht
    rw [renderInlineCeiling, renderCore, if_pos ht]

/-- C4 witness. -/
theorem C4_depth_ceiling_witness :
    MAX_DEPTH ≤ 11 ∧
    (renderInlineMarkdownD "**w**".data 11 = renderInlineCeiling "**w**".data ∧
      (jsTrim "**w**".data = [] → renderInlineCeiling "**w**".data = [])) :=
  ⟨by decide, C4_depth_ceiling "**w**".data 11 (by decide)⟩

/-! Empty blocks: claim C7. -/

/-- C7 amended.  Paragraph and list blocks with no renderable content are
dropped rather than emitted empty, in both profiles; but blocks of other
kinds can be emitted empty: a bare heading marker run yields an empty
Semantic heading element (the empty blockquote appears in the
counterexample theorem). -/
theorem C7_empty_blocks :
    (∀ lines : List (List Char),
      (lines.map jsTrim).filter (fun l => !l.isEmpty) = [] →
        semParaSegment lines = none) ∧
    (∀ lines : List (List Char),
      (∀ l ∈ lines, jsTrim l = []) → divParaSegment lines = none) ∧
    (∀ (isOrdered : Bool) (items : List (Option Nat × List Char)),
      items.filter nonEmptyItem = [] →
        semListSegment isOrdered items = none ∧ divListSegment isOrdered items = none) ∧
    markdownToHtml (some "##") = some "<h2></h2>" := by
  refine ⟨?_, ?_, ?_, by decide⟩
  · intro lines h
    simp [semParaSegment, h]
  · intro lines h
    have hall : ∀ c ∈ joinSep [' '] lines, jsSpace c := by
      induction lines with
      | nil => intro c hc; cases hc
      | cons x rest ih =>
        have hx : ∀ c ∈ x, jsSpace c := all_space_of_jsTrim_nil (h x (by simp))
        have hrest := ih (fun l hl => h l (by simp [hl]))
        intro c hc
        cases rest with
        | nil => exact hx c hc
        | cons y t =>
          rw [joinSep] at hc
          rcases List.mem_append.mp hc with h1 | h1
          · rcases List.mem_append.mp h1 with h2 | h2
            · exact hx c h2
            · have : c = ' ' := by simpa using h2
              subst this
              decide
          · exact hrest c h1
    have hcoll : ∀ c ∈ collapseWs (joinSep [' '] lines), jsSpace c :=
      collapseWsAux_space (joinSep [' '] lines) hall false
    have htr : jsTrim (collapseWs (joinSep [' '] lines)) = [] :=
      jsTrim_nil_of_all_space hcoll
    simp [divParaSegment, htr]
  · intro isOrdered items h
    constructor
    · have e : semItemsLoop isOrdered (listStartValue isOrdered items) 0
          (List.filter nonEmptyItem items) = [] := by rw [h]; rfl
      simp [semListSegment, e]
    · have e : divItemsLoop isOrdered (listStartValue isOrdered items) 0
          (List.filter nonEmptyItem items) = [] := by rw [h]; rfl
      simp [divListSegment, e]


/-! Ordered-list numbering: claim C8. -/

theorem appendLeftNe {a b : List Char} (h : a ≠ []) : a ++ b ≠ [] := by
  cases a with
  | nil => exact absurd rfl h
  | cons x t => simp

/-- C8 amended.  For ordered lists the renderer emits a start attribute
exactly when the first item carries a nonzero explicit ordinal different
from one (an explicit zero is falsy and treated as absent, the start falling
back to one), and an item carries a value attribute exactly when its
explicit ordinal is nonzero and differs from the start value plus its
position; contiguous numbering starting at five yields a start attribute
and no value attributes, while a break in the sequence yields a value
attribute on the breaking item. -/
theorem C8_ordered_numbering :
    (∀ (ordinal : Option Nat) (startValue i : Nat),
      listValueAttr true ordinal startValue i ≠ [] ↔
        ∃ o, ordinal = some o ∧ o ≠ 0 ∧ o ≠ startValue + i) ∧
    (∀ items : List (Option Nat × List Char),
      listStartAttr true (listStartValue true items) ≠ [] ↔
        ∃ o c rest, items = (some o, c) :: rest ∧ o ≠ 0 ∧ o ≠ 1) ∧
    markdownToHtml (some "5. First\n6. Second") =
      some "<ol start=\"5\" style=\"padding-left: 25px;\"><li>First</li><li>Second</li></ol>" ∧
    markdownToHtml (some "5. First\n7. Second") =
      some "<ol start=\"5\" style=\"padding-left: 25px;\"><li>First</li><li value=\"7\">Second</li></ol>" := by
  refine ⟨?_, ?_, by decide, by decide⟩
  · intro ordinal startValue i
    cases ordinal with
    | none => simp [listValueAttr]
    | some o =>
      simp only [listValueAttr]
      by_cases h1 : o = 0
      · subst h1
        rw [if_neg (by simp)]
        simp
      · by_cases h2 : o = startValue + i
        · rw [if_neg (by simp [h2])]
          simp [h1, h2]
        · rw [if_pos ⟨trivial, h1, h2⟩]
          constructor
          · intro _
            exact ⟨o, rfl, h1, h2⟩
          · intro _
            exact appendLeftNe (appendLeftNe (by decide))
  · intro items
    match items with
    | [] =>
      simp [listStartValue, listStartAttr]
    | (none, c) :: rest =>
      simp [listStartValue, listStartAttr]
    | (some o, c) :: rest =>
      simp only [listStartValue, listStartAttr]
      by_cases h1 : o = 0
      · subst h1
        simp
      · by_cases h2 : o = 1
        · subst h2
          simp
        · rw [if_pos h1]
          rw [if_pos ⟨trivial, h2⟩]
          constructor
          · intro _
            exact ⟨o, c, rest, rfl, h1, h2⟩
          · intro _
            exact appendLeftNe (appendLeftNe (by decide))


/-! Profile-independent segmentation: claim C6. -/

theorem inv_flushPara {a b : SegState} (h : Inv a b) :
    Inv (flushParagraphS a) (flushParagraphS b) := by
  obtain ⟨hp, hc, hb⟩ := h
  unfold flushParagraphS
  rw [hp]
  by_cases h0 : b.paraBuf = []
  · rw [if_pos h0, if_pos h0]
    exact ⟨hp, hc, hb⟩
  · rw [if_neg h0, if_neg h0]
    refine ⟨rfl, hc, ?_⟩
    simp only [List.map_append, hb, hp]

theorem inv_flushList {a b : SegState} (h : Inv a b) :
    Inv (flushListS a) (flushListS b) := by
  have hp := h.1
  have hc := h.2.1
  have hb := h.2.2
  rcases ha : a.listCtx with _ | ⟨ty1, it1⟩ <;> rcases hbx : b.listCtx with _ | ⟨ty2, it2⟩
  · simp only [flushListS, ha, hbx]
    exact h
  · rw [ha, hbx] at hc
    exact absurd hc (by simp [relCtx])
  · rw [ha, hbx] at hc
    exact absurd hc (by simp [relCtx])
  · rw [ha, hbx] at hc
    obtain ⟨hty, hfa, hfb, hne⟩ := hc
    have hne2 : it2 ≠ [] := by
      intro h0
      rw [h0, List.filter_nil] at hfb
      exact hne hfb.symm
    simp only [flushListS, ha, hbx, if_neg hne, if_neg hne2]
    refine ⟨hp, trivial, ?_⟩
    simp only [List.map_append, hb, List.map_cons, List.map_nil, dropEmptyItems, hty, hfa, hfb]

theorem inv_emitBlock (bk : Blk) {a b : SegState} (h : Inv a b) :
    Inv { a with blocks := a.blocks ++ [bk] } { b with blocks := b.blocks ++ [bk] } := by
  refine ⟨h.1, h.2.1, ?_⟩
  simp only [List.map_append, h.2.2]

theorem filter_singleton_nonEmpty {it : Option Nat × List Char} (hit : nonEmptyItem it = true) :
    List.filter nonEmptyItem [it] = [it] := by
  simp [List.filter, hit]

theorem inv_listPush (ty : Bool) (it : Option Nat × List Char) (hit : nonEmptyItem it = true)
    {a b : SegState} (h : Inv a b) :
    Inv (pushItem it (ensureListS ty a)) (pushItem it (ensureListS ty b)) := by
  have hc := h.2.1
  have hflush := inv_flushList (inv_flushPara h)
  rcases ha : a.listCtx with _ | ⟨ty1, it1⟩ <;> rcases hbx : b.listCtx with _ | ⟨ty2, it2⟩
  · simp only [ensureListS, ha, hbx, pushItem]
    refine ⟨hflush.1, ?_, hflush.2.2⟩
    simp only [List.nil_append, relCtx]
    exact ⟨trivial, filter_singleton_nonEmpty hit, filter_singleton_nonEmpty hit, by simp⟩
  · rw [ha, hbx] at hc
    exact absurd hc (by simp [relCtx])
  · rw [ha, hbx] at hc
    exact absurd hc (by simp [relCtx])
  · rw [ha, hbx] at hc
    obtain ⟨hty, hfa, hfb, hne⟩ := hc
    by_cases hsame : ty1 = ty
    · have hsame2 : ty2 = ty := by rw [hty, hsame]
      simp only [ensureListS, ha, hbx, if_pos hsame, if_pos hsame2, pushItem]
      refine ⟨h.1, ?_, h.2.2⟩
      simp only [relCtx]
      refine ⟨hty, ?_, ?_, by simp⟩
      · rw [List.filter_append, hfa, filter_singleton_nonEmpty hit]
      · rw [List.filter_append, hfb, filter_singleton_nonEmpty hit]
    · have hsame2 : ¬ ty2 = ty := by rw [hty]; exact hsame
      simp only [ensureListS, ha, hbx, if_neg hsame, if_neg hsame2, pushItem]
      refine ⟨hflush.1, ?_, hflush.2.2⟩
      simp only [List.nil_append, relCtx]
      exact ⟨trivial, filter_singleton_nonEmpty hit, filter_singleton_nonEmpty hit, by simp⟩


theorem nonEmptyItem_of_trim {o : Option Nat} {c : List Char} (h : jsTrim c ≠ []) :
    nonEmptyItem (o, c) = true := by
  simp only [nonEmptyItem, Bool.not_eq_true']
  cases he : (jsTrim c).isEmpty
  · rfl
  · exact absurd (List.isEmpty_iff.mp he) h

theorem emptyItem_filter :
    List.filter nonEmptyItem [((none : Option Nat), ([] : List Char))] = [] := by
  decide

theorem inv_paraPush (r : List Char) {a b : SegState} (h : Inv a b) :
    Inv { a with paraBuf := a.paraBuf ++ [r] } { b with paraBuf := b.paraBuf ++ [r] } := by
  refine ⟨?_, h.2.1, h.2.2⟩
  simp only [h.1]

theorem stepListPart_inv (tl : List Char) {a b : SegState} (h : Inv a b) :
    Inv (stepListPart a tl) (stepListPart b tl) := by
  simp only [stepListPart]
  rcases hor : orderedMatch tl with _ | ⟨n, c⟩
  · rcases hun : unorderedMatch tl with _ | cu
    · by_cases hsd : singleDashMatch tl = true
      · simp only [hsd, if_true]
        exact inv_flushPara h
      · simp only [hsd, Bool.false_eq_true, if_false]
        rcases hdp : dashParaMatch tl with _ | r
        · exact inv_paraPush _ (inv_flushList h)
        · by_cases hr : r = []
          · simp only [hr, if_pos rfl]
            exact inv_paraPush _ (inv_flushList h)
          · simp only [if_neg hr]
            exact inv_paraPush _ (inv_flushPara h)
    · by_cases hcu : jsTrim cu = []
      · simp only [hcu, if_pos rfl]
        by_cases hsd : singleDashMatch tl = true
        · simp only [hsd, if_true]
          exact inv_flushPara h
        · simp only [hsd, Bool.false_eq_true, if_false]
          rcases hdp : dashParaMatch tl with _ | r
          · exact inv_paraPush _ (inv_flushList h)
          · by_cases hr : r = []
            · simp only [hr, if_pos rfl]
              exact inv_paraPush _ (inv_flushList h)
            · simp only [if_neg hr]
              exact inv_paraPush _ (inv_flushPara h)
      · simp only [if_neg hcu]
        exact inv_listPush false (none, cu) (nonEmptyItem_of_trim hcu) h
  · by_cases hc0 : jsTrim c = []
    · simp only [hc0, if_pos rfl]
      rcases hun : unorderedMatch tl with _ | cu
      · by_cases hsd : singleDashMatch tl = true
        · simp only [hsd, if_true]
          exact inv_flushPara h
        · simp only [hsd, Bool.false_eq_true, if_false]
          rcases hdp : dashParaMatch tl with _ | r
          · exact inv_paraPush _ (inv_flushList h)
          · by_cases hr : r = []
            · simp only [hr, if_pos rfl]
              exact inv_paraPush _ (inv_flushList h)
            · simp only [if_neg hr]
              exact inv_paraPush _ (inv_flushPara h)
      · by_cases hcu : jsTrim cu = []
        · simp only [hcu, if_pos rfl]
          by_cases hsd : singleDashMatch tl = true
          · simp only [hsd, if_true]
            exact inv_flushPara h
          · simp only [hsd, Bool.false_eq_true, if_false]
            rcases hdp : dashParaMatch tl with _ | r
            · exact inv_paraPush _ (inv_flushList h)
            · by_cases hr : r = []
              · simp only [hr, if_pos rfl]
                exact inv_paraPush _ (inv_flushList h)
              · simp only [if_neg hr]
                exact inv_paraPush _ (inv_flushPara h)
        · simp only [if_neg hcu]
          exact inv_listPush false (none, cu) (nonEmptyItem_of_trim hcu) h
    · simp only [if_neg hc0]
      exact inv_listPush true (some n, c) (nonEmptyItem_of_trim hc0) h

theorem step_inv {a b : SegState} (l : List Char)
    (hmeq : headingMatchSem (jsTrim l) = headingMatchDiv (jsTrim l))
    (h : Inv a b) :
    Inv (stepLine headingMatchSem false a l) (stepLine headingMatchDiv true b l) := by
  have hc := h.2.1
  by_cases htl : jsTrim l = []
  · simp only [stepLine, htl, if_pos rfl]
    rcases ha : a.listCtx with _ | ⟨ty1, it1⟩ <;> rcases hbx : b.listCtx with _ | ⟨ty2, it2⟩
    · exact inv_flushPara h
    · rw [ha, hbx] at hc
      exact absurd hc (by simp [relCtx])
    · rw [ha, hbx] at hc
      exact absurd hc (by simp [relCtx])
    · rw [ha, hbx] at hc
      obtain ⟨hty, hfa, hfb, hne⟩ := hc
      simp only [Bool.false_eq_true, if_false, if_true]
      refine ⟨h.1, ?_, h.2.2⟩
      rw [ha]
      simp only [relCtx]
      refine ⟨hty, hfa, ?_, hne⟩
      rw [List.filter_append, hfb, emptyItem_filter, List.append_nil]
  · have hmd : ∀ v, headingMatchSem (jsTrim l) = v → headingMatchDiv (jsTrim l) = v := by
      intro v hv
      rw [← hmeq]
      exact hv
    simp only [stepLine, if_neg htl]
    rcases hm : headingMatchSem (jsTrim l) with _ | ⟨lvl, content⟩
    · rw [hmd _ hm]
      by_cases hdv : dividerMatch (jsTrim l) = true
      · simp only [hdv, if_true, if_pos rfl]
        exact inv_emitBlock _ (inv_flushList (inv_flushPara h))
      · simp only [hdv, Bool.false_eq_true, if_false]
        rcases hbq : blockquoteMatch (jsTrim l) with _ | q
        · exact stepListPart_inv _ h
        · exact inv_emitBlock _ (inv_flushList (inv_flushPara h))
    · rw [hmd _ hm]
      exact inv_emitBlock _ (inv_flushList (inv_flushPara h))


theorem foldl_inv (lines : List (List Char)) :
    ∀ {a b : SegState}, Inv a b →
      (∀ l ∈ lines, headingMatchSem (jsTrim l) = headingMatchDiv (jsTrim l)) →
      Inv (lines.foldl (stepLine headingMatchSem false) a)
        (lines.foldl (stepLine headingMatchDiv true) b) := by
  induction lines with
  | nil =>
    intro a b h _
    exact h
  | cons l rest ih =>
    intro a b h hl
    simp only [List.foldl_cons]
    exact ih (step_inv l (hl l (by simp)) h) (fun x hx => hl x (by simp [hx]))

/-- C6 amended.  The two segmenters classify lines identically except for
heading recognition, where the DivWrapped profile requires whitespace after
the marker run while the Semantic profile does not: for every input on whose
trimmed lines the two heading matchers agree, the two profiles produce the
same block sequence, the DivWrapped list blocks agreeing with the Semantic
ones once the blank-line items both renderers drop are removed. -/
theorem C6_profile_segmentation (s : String)
    (h : ∀ l ∈ splitLines s.data, headingMatchSem (jsTrim l) = headingMatchDiv (jsTrim l)) :
    (segDiv (splitLines s.data)).map dropEmptyItems =
      (segSem (splitLines s.data)).map dropEmptyItems := by
  have hinv : Inv ⟨[], none, []⟩ ⟨[], none, []⟩ := ⟨rfl, trivial, rfl⟩
  have hfin := inv_flushList (inv_flushPara (foldl_inv (splitLines s.data) hinv h))
  unfold segSem segDiv segLines
  exact hfin.2.2.symm

/-- C6 witness. -/
theorem C6_profile_segmentation_witness :
    (∀ l ∈ splitLines "# Title\n- a\n\n- b\ntext".data,
      headingMatchSem (jsTrim l) = headingMatchDiv (jsTrim l)) ∧
    (segDiv (splitLines "# Title\n- a\n\n- b\ntext".data)).map dropEmptyItems =
      (segSem (splitLines "# Title\n- a\n\n- b\ntext".data)).map dropEmptyItems :=
  ⟨by decide, C6_profile_segmentation _ (by decide)⟩


/-- C7 witness. -/
theorem C7_empty_blocks_witness :
    semParaSegment [" ".data] = none ∧
    divParaSegment ["\t".data] = none ∧
    (semListSegment false [(none, " ".data)] = none ∧
      divListSegment false [(none, " ".data)] = none) :=
  ⟨C7_empty_blocks.1 [" ".data] (by decide),
   C7_empty_blocks.2.1 ["\t".data] (by decide),
   C7_empty_blocks.2.2.1 false [(none, " ".data)] (by decide)⟩


/-! Injection safety, part 1: the Escaper produces safe text. -/

theorem SafeS_append {a b : List Char} (ha : SafeS a) (hb : SafeS b) : SafeS (a ++ b) := by
  induction ha with
  | nil => simpa using hb
  | plain c t hc ht ih => exact SafeS.plain c (t ++ b) hc ih
  | ent e t he ht ih =>
    rw [List.append_assoc]
    exact SafeS.ent e (t ++ b) he ih
  | vocab v t hv ht ih =>
    rw [List.append_assoc]
    exact SafeS.vocab v (t ++ b) hv ih
  | semList tag sa style t h1 h2 h3 ht ih =>
    simpa [List.append_assoc] using SafeS.semList tag sa style (t ++ b) h1 h2 h3 ih
  | divList cls tag sa t h1 h2 h3 ht ih =>
    simpa [List.append_assoc] using SafeS.divList cls tag sa (t ++ b) h1 h2 h3 ih
  | liOpen va t h1 ht ih =>
    simpa [List.append_assoc] using SafeS.liOpen va (t ++ b) h1 ih
  | hOpen ds t h1 ht ih =>
    simpa [List.append_assoc] using SafeS.hOpen ds (t ++ b) h1 ih
  | hClose ds t h1 ht ih =>
    simpa [List.append_assoc] using SafeS.hClose ds (t ++ b) h1 ih
  | divHeading ds t h1 ht ih =>
    simpa [List.append_assoc] using SafeS.divHeading ds (t ++ b) h1 ih

theorem prependPlain {u t : List Char} (hu : ∀ c ∈ u, specialChar c = false)
    (ht : SafeS t) : SafeS (u ++ t) := by
  induction u with
  | nil => simpa using ht
  | cons c r ih =>
    exact SafeS.plain c (r ++ t) (hu c (by simp)) (ih (fun d hd => hu d (by simp [hd])))

theorem SafeS_plainList {u : List Char} (hu : ∀ c ∈ u, specialChar c = false) :
    SafeS u := by
  simpa using prependPlain hu SafeS.nil

theorem expandRepl_passthru (pre m post : List Char) :
    ∀ (u t : List Char), '$' ∉ u →
      expandRepl pre m post (u ++ t) = u ++ expandRepl pre m post t := by
  intro u
  induction u with
  | nil =>
    intro t _
    simp
  | cons x r ih =>
    intro t hd
    have hx : x ≠ '$' := by
      intro he
      exact hd (by simp [he])
    have hr : '$' ∉ r := fun hm => hd (by simp [hm])
    rw [List.cons_append]
    cases hrt : r ++ t with
    | nil =>
      obtain ⟨hr0, ht0⟩ := List.append_eq_nil.mp hrt
      subst hr0
      subst ht0
      simp [expandRepl]
    | cons y q =>
      have hstep : expandRepl pre m post (x :: y :: q) = x :: expandRepl pre m post (y :: q) := by
        simp only [expandRepl]
        rw [if_neg hx]
      rw [hstep, ← hrt, ih t hr]
      simp

theorem expand_no_dollar (pre m post : List Char) {repl : List Char} (h : '$' ∉ repl) :
    expandRepl pre m post repl = repl := by
  simpa [expandRepl] using expandRepl_passthru pre m post repl [] h

theorem replaceAll_single_char (ch : Char) (repl : List Char) (hrep : '$' ∉ repl) :
    ∀ (fuel : Nat) (rpre s : List Char), s.length < fuel →
      replaceAllAux [ch] repl fuel rpre s =
        s.flatMap (fun x => if x = ch then repl else [x]) := by
  intro fuel
  induction fuel with
  | zero =>
    intro rpre s h
    exact absurd h (Nat.not_lt_zero _)
  | succ f ih =>
    intro rpre s h
    cases s with
    | nil => simp [replaceAllAux, List.isPrefixOf]
    | cons x t =>
      have ht : t.length < f := by
        simpa using Nat.lt_of_succ_lt_succ h
      by_cases hx : x = ch
      · subst hx
        have hpre : ([x].isPrefixOf (x :: t)) = true := by
          simp [List.isPrefixOf]
        simp only [replaceAllAux, if_pos hpre]
        rw [expand_no_dollar _ _ _ hrep]
        simp only [List.length_cons, List.length_nil, Nat.zero_add, List.drop_succ_cons,
          List.drop_zero]
        rw [ih _ t ht]
        simp
      · have hpre : (([ch].isPrefixOf (x :: t))) = false := by
          simp only [List.isPrefixOf, Bool.and_eq_false_iff]
          left
          exact beq_false_of_ne (fun he => hx he.symm)
        simp only [replaceAllAux, if_neg (by simp [hpre] : ¬([ch].isPrefixOf (x :: t) = true))]
        rw [ih _ t ht]
        simp [hx]

theorem bind_bind_char (s : List Char) (f g : Char → List Char) :
    (s.flatMap f).flatMap g = s.flatMap (fun c => (f c).flatMap g) := by
  induction s with
  | nil => rfl
  | cons c t ih => simp [List.flatMap_cons, List.flatMap_append, ih]

theorem bind_congr_char {l : List Char} {f g : Char → List Char}
    (h : ∀ x ∈ l, f x = g x) : l.flatMap f = l.flatMap g := by
  induction l with
  | nil => rfl
  | cons c t ih =>
    rw [List.flatMap_cons, List.flatMap_cons, h c (by simp),
      ih (fun x hx => h x (by simp [hx]))]

theorem escapeHtml_eq_bind (s : List Char) : escapeHtml s = s.flatMap escChar := by
  unfold escapeHtml replaceAll
  rw [replaceAll_single_char '&' _ (by decide) _ _ _ (Nat.lt_succ_self _)]
  rw [replaceAll_single_char '<' _ (by decide) _ _ _ (Nat.lt_succ_self _)]
  rw [replaceAll_single_char '>' _ (by decide) _ _ _ (Nat.lt_succ_self _)]
  rw [replaceAll_single_char '"' _ (by decide) _ _ _ (Nat.lt_succ_self _)]
  rw [replaceAll_single_char apos _ (by decide) _ _ _ (Nat.lt_succ_self _)]
  rw [bind_bind_char, bind_bind_char, bind_bind_char, bind_bind_char]
  apply bind_congr_char
  intro c _
  by_cases h1 : c = '&'
  · subst h1
    decide
  by_cases h2 : c = '<'
  · subst h2
    decide
  by_cases h3 : c = '>'
  · subst h3
    decide
  by_cases h4 : c = '"'
  · subst h4
    decide
  by_cases h5 : c = apos
  · subst h5
    decide
  simp [escChar, h1, h2, h3, h4, h5]

theorem escapeHtmlAttribute_eq (s : List Char) : escapeHtmlAttribute s = escapeHtml s := rfl

theorem SafeS_escape (s : List Char) : SafeS (escapeHtml s) := by
  rw [escapeHtml_eq_bind]
  induction s with
  | nil => exact SafeS.nil
  | cons c t ih =>
    rw [List.flatMap_cons]
    by_cases h1 : c = '&'
    · subst h1
      exact SafeS.ent "&amp;".data _ (by decide) ih
    by_cases h2 : c = '<'
    · subst h2
      exact SafeS.ent "&lt;".data _ (by decide) ih
    by_cases h3 : c = '>'
    · subst h3
      exact SafeS.ent "&gt;".data _ (by decide) ih
    by_cases h4 : c = '"'
    · subst h4
      exact SafeS.ent "&quot;".data _ (by decide) ih
    by_cases h5 : c = apos
    · subst h5
      exact SafeS.ent "&#39;".data _ (by decide) ih
    have he : escChar c = [c] := by
      simp [escChar, h1, h2, h3, h4, h5]
    rw [he]
    have hs : specialChar c = false := by
      simp [specialChar, beq_iff_eq, h1, h2, h3, h4, h5]
    exact SafeS.plain c _ hs ih


/-! Injection safety, part 2: facts about grammar units. -/

theorem digit_bounds {c : Char} (h : c.isDigit = true) : '0' ≤ c ∧ c ≤ '9' := by
  simpa [Char.isDigit] using h

theorem digit_char_facts {c : Char} (h : c.isDigit = true) :
    specialChar c = false ∧ c ≠ '$' ∧ c ≠ '@' := by
  have hb := digit_bounds h
  have h1 : c ≠ '<' := fun he => absurd (he ▸ hb) (by decide)
  have h2 : c ≠ '>' := fun he => absurd (he ▸ hb) (by decide)
  have h3 : c ≠ '&' := fun he => absurd (he ▸ hb) (by decide)
  have h4 : c ≠ '"' := fun he => absurd (he ▸ hb) (by decide)
  have h5 : c ≠ apos := fun he => absurd (he ▸ hb) (by decide)
  refine ⟨by simp [specialChar, beq_iff_eq, h1, h2, h3, h4, h5], ?_, ?_⟩
  · exact fun he => absurd (he ▸ hb) (by decide)
  · exact fun he => absurd (he ▸ hb) (by decide)

theorem ent_facts : ∀ e ∈ entList, e ≠ [] ∧ '$' ∉ e ∧ '@' ∉ e := by
  decide

theorem vocab_facts : ∀ v ∈ vocabList, v ≠ [] ∧ '$' ∉ v ∧ '@' ∉ v := by
  decide

theorem vocab_head : ∀ v ∈ vocabList,
    v.head?.all (fun c => !(c == '$' || c == '&' || c == btick || c == apos || tokenChar c)) = true := by
  decide

theorem ent_head : ∀ e ∈ entList, e.head? = some '&' := by
  decide

theorem vocab_head2 : ∀ v ∈ vocabList, v.head? = some '<' ∨ v.head? = some '"' := by
  decide

theorem digits_no_dollar {ds : List Char} (h : ds.all Char.isDigit = true) :
    '$' ∉ ds ∧ '@' ∉ ds := by
  constructor
  · intro hm
    exact (digit_char_facts (List.all_eq_true.mp h _ hm)).2.1 rfl
  · intro hm
    exact (digit_char_facts (List.all_eq_true.mp h _ hm)).2.2 rfl

theorem startAttr_no {sa : List Char} (h : startAttrOk sa) : '$' ∉ sa ∧ '@' ∉ sa := by
  rcases h with rfl | ⟨ds, ⟨hne, hdig⟩, rfl⟩
  · simp
  · have hd := digits_no_dollar hdig
    constructor
    · simp only [List.mem_append]
      rintro ((hm | hm) | hm)
      · exact absurd hm (by decide)
      · exact hd.1 hm
      · exact absurd hm (by decide)
    · simp only [List.mem_append]
      rintro ((hm | hm) | hm)
      · exact absurd hm (by decide)
      · exact hd.2 hm
      · exact absurd hm (by decide)

theorem valueAttr_no {va : List Char} (h : valueAttrOk va) : '$' ∉ va ∧ '@' ∉ va := by
  rcases h with rfl | ⟨ds, ⟨hne, hdig⟩, rfl⟩
  · simp
  · have hd := digits_no_dollar hdig
    constructor
    · simp only [List.mem_append]
      rintro ((hm | hm) | hm)
      · exact absurd hm (by decide)
      · exact hd.1 hm
      · exact absurd hm (by decide)
    · simp only [List.mem_append]
      rintro ((hm | hm) | hm)
      · exact absurd hm (by decide)
      · exact hd.2 hm
      · exact absurd hm (by decide)

theorem style_no {style : List Char} (h : styleOk style) : '$' ∉ style ∧ '@' ∉ style := by
  rcases h with rfl | rfl
  · exact ⟨by decide, by decide⟩
  · exact ⟨by decide, by decide⟩

theorem tag_no {tag : List Char} (h : tagOk tag) : '$' ∉ tag ∧ '@' ∉ tag := by
  rcases h with rfl | rfl
  · exact ⟨by decide, by decide⟩
  · exact ⟨by decide, by decide⟩

theorem cls_no {cls : List Char} (h : clsOk cls) : '$' ∉ cls ∧ '@' ∉ cls := by
  rcases h with rfl | rfl
  · exact ⟨by decide, by decide⟩
  · exact ⟨by decide, by decide⟩

theorem not_mem_append {c : Char} {a b : List Char} (ha : c ∉ a) (hb : c ∉ b) :
    c ∉ a ++ b := by
  simp only [List.mem_append]
  rintro (h | h)
  · exact ha h
  · exact hb h


/-! Injection safety, part 3: the shaped units satisfy UnitP. -/

theorem unitP_vocab {v : List Char} (hv : v ∈ vocabList) : UnitP v := by
  refine ⟨fun t ht => SafeS.vocab v t hv ht, (vocab_facts v hv).2.1, (vocab_facts v hv).2.2, ?_⟩
  cases v with
  | nil => exact absurd rfl (vocab_facts _ hv).1
  | cons c u2 =>
    have hh := vocab_head _ hv
    have hh2 := vocab_head2 _ hv
    simp only [List.head?_cons, Option.all_some, Bool.not_eq_true', Bool.or_eq_false_iff] at hh
    simp only [List.head?_cons, Option.some.injEq] at hh2
    exact ⟨c, u2, rfl, by simpa using hh.1.1.1.1, by simpa using hh.1.1.1.2,
      by simpa using hh.1.1.2, by simpa using hh.1.2, hh.2, hh2⟩

theorem unitP_semList {tag sa style : List Char}
    (h1 : tagOk tag) (h2 : startAttrOk sa) (h3 : styleOk style) :
    UnitP ("<".data ++ tag ++ sa ++ style ++ ">".data) := by
  have ht := tag_no h1
  have hs := startAttr_no h2
  have hy := style_no h3
  refine ⟨fun t hst => by simpa [List.append_assoc] using SafeS.semList tag sa style t h1 h2 h3 hst,
    ?_, ?_, ?_⟩
  · exact not_mem_append (not_mem_append (not_mem_append (not_mem_append (by decide) ht.1) hs.1) hy.1) (by decide)
  · exact not_mem_append (not_mem_append (not_mem_append (not_mem_append (by decide) ht.2) hs.2) hy.2) (by decide)
  · refine ⟨'<', tag ++ sa ++ style ++ ">".data, ?_, by decide, by decide, by decide, by decide,
      by decide, by decide⟩
    simp [show "<".data = ['<'] from by decide, List.append_assoc]

theorem unitP_divList {cls tag sa : List Char}
    (h1 : clsOk cls) (h2 : tagOk tag) (h3 : startAttrOk sa) :
    UnitP ("<div class=\"".data ++ cls ++ "\"><".data ++ tag ++ sa ++ ">".data) := by
  have hc := cls_no h1
  have ht := tag_no h2
  have hs := startAttr_no h3
  refine ⟨fun t hst => by simpa [List.append_assoc] using SafeS.divList cls tag sa t h1 h2 h3 hst,
    ?_, ?_, ?_⟩
  · exact not_mem_append (not_mem_append (not_mem_append (not_mem_append (not_mem_append (by decide) hc.1) (by decide)) ht.1) hs.1) (by decide)
  · exact not_mem_append (not_mem_append (not_mem_append (not_mem_append (not_mem_append (by decide) hc.2) (by decide)) ht.2) hs.2) (by decide)
  · refine ⟨'<', "div class=\"".data ++ cls ++ "\"><".data ++ tag ++ sa ++ ">".data, ?_,
      by decide, by decide, by decide, by decide, by decide, by decide⟩
    simp [show "<div class=\"".data = '<' :: "div class=\"".data from by decide, List.append_assoc]

theorem unitP_liOpen {va : List Char} (h1 : valueAttrOk va) :
    UnitP ("<li".data ++ va ++ ">".data) := by
  have hv := valueAttr_no h1
  refine ⟨fun t hst => by simpa [List.append_assoc] using SafeS.liOpen va t h1 hst, ?_, ?_, ?_⟩
  · exact not_mem_append (not_mem_append (by decide) hv.1) (by decide)
  · exact not_mem_append (not_mem_append (by decide) hv.2) (by decide)
  · refine ⟨'<', "li".data ++ va ++ ">".data, ?_, by decide, by decide, by decide, by decide,
      by decide, by decide⟩
    simp [show "<li".data = '<' :: "li".data from by decide, List.append_assoc]

theorem unitP_hOpen {ds : List Char} (h1 : digitsOk ds) :
    UnitP ("<h".data ++ ds ++ ">".data) := by
  have hd := digits_no_dollar h1.2
  refine ⟨fun t hst => by simpa [List.append_assoc] using SafeS.hOpen ds t h1 hst, ?_, ?_, ?_⟩
  · exact not_mem_append (not_mem_append (by decide) hd.1) (by decide)
  · exact not_mem_append (not_mem_append (by decide) hd.2) (by decide)
  · refine ⟨'<', "h".data ++ ds ++ ">".data, ?_, by decide, by decide, by decide, by decide,
      by decide, by decide⟩
    simp [show "<h".data = '<' :: "h".data from by decide, List.append_assoc]

theorem unitP_hClose {ds : List Char} (h1 : digitsOk ds) :
    UnitP ("</h".data ++ ds ++ ">".data) := by
  have hd := digits_no_dollar h1.2
  refine ⟨fun t hst => by simpa [List.append_assoc] using SafeS.hClose ds t h1 hst, ?_, ?_, ?_⟩
  · exact not_mem_append (not_mem_append (by decide) hd.1) (by decide)
  · exact not_mem_append (not_mem_append (by decide) hd.2) (by decide)
  · refine ⟨'<', "/h".data ++ ds ++ ">".data, ?_, by decide, by decide, by decide, by decide,
      by decide, by decide⟩
    simp [show "</h".data = '<' :: "/h".data from by decide, List.append_assoc]

theorem unitP_divHeading {ds : List Char} (h1 : digitsOk ds) :
    UnitP ("<div class=\"heading heading-".data ++ ds ++ "\">".data) := by
  have hd := digits_no_dollar h1.2
  refine ⟨fun t hst => by simpa [List.append_assoc] using SafeS.divHeading ds t h1 hst, ?_, ?_, ?_⟩
  · exact not_mem_append (not_mem_append (by decide) hd.1) (by decide)
  · exact not_mem_append (not_mem_append (by decide) hd.2) (by decide)
  · refine ⟨'<', "div class=\"heading heading-".data ++ ds ++ "\">".data, ?_,
      by decide, by decide, by decide, by decide, by decide, by decide⟩
    simp [show "<div class=\"heading heading-".data = '<' :: "div class=\"heading heading-".data from by decide,
      List.append_assoc]


/-! Injection safety, part 4: dollar expansion preserves the grammar. -/

theorem expand_cons_ne (pre m post : List Char) {c : Char} (t : List Char) (h : c ≠ '$') :
    expandRepl pre m post (c :: t) = c :: expandRepl pre m post t := by
  cases t with
  | nil => simp [expandRepl]
  | cons y q =>
    simp only [expandRepl]
    rw [if_neg h]

theorem expand_dollar_dollar (pre m post : List Char) (r : List Char) :
    expandRepl pre m post ('$' :: '$' :: r) = '$' :: expandRepl pre m post r := by
  simp [expandRepl]

theorem expand_dollar_amp (pre m post : List Char) (r : List Char) :
    expandRepl pre m post ('$' :: '&' :: r) = m ++ expandRepl pre m post r := by
  simp [expandRepl]

theorem expand_dollar_btick (pre m post : List Char) (r : List Char) :
    expandRepl pre m post ('$' :: btick :: r) = pre ++ expandRepl pre m post r := by
  simp [expandRepl]
  rw [if_neg (show ¬(btick = '$') from by decide), if_neg (show ¬(btick = '&') from by decide)]

theorem expand_dollar_apos (pre m post : List Char) (r : List Char) :
    expandRepl pre m post ('$' :: apos :: r) = post ++ expandRepl pre m post r := by
  simp [expandRepl]
  rw [if_neg (show ¬(apos = '$') from by decide), if_neg (show ¬(apos = '&') from by decide),
    if_neg (show ¬(apos = btick) from by decide)]

theorem expand_dollar_other (pre m post : List Char) {c : Char} (r : List Char)
    (h1 : c ≠ '$') (h2 : c ≠ '&') (h3 : c ≠ btick) (h4 : c ≠ apos) :
    expandRepl pre m post ('$' :: c :: r) = '$' :: c :: expandRepl pre m post r := by
  simp [expandRepl, h1, h2, h3, h4]

theorem expand_dollar_cons (pre m post : List Char) {c : Char} (u2 t : List Char)
    (h1 : c ≠ '$') (h2 : c ≠ '&') (h3 : c ≠ btick) (h4 : c ≠ apos) (hd2 : '$' ∉ u2) :
    expandRepl pre m post ('$' :: c :: (u2 ++ t)) =
      '$' :: c :: (u2 ++ expandRepl pre m post t) := by
  rw [expand_dollar_other pre m post (u2 ++ t) h1 h2 h3 h4,
    expandRepl_passthru pre m post u2 t hd2]

theorem unitP_length {u : List Char} (hu : UnitP u) : 1 ≤ u.length := by
  obtain ⟨_, _, _, c, u2, hcu, _⟩ := hu
  rw [hcu, List.length_cons]
  omega

theorem expand_unitP (pre m post : List Char) {u t : List Char} (hu : UnitP u)
    (hts : SafeS (expandRepl pre m post t)) :
    SafeS (expandRepl pre m post (u ++ t)) := by
  obtain ⟨hre, hd, _⟩ := hu
  rw [expandRepl_passthru pre m post u t hd]
  exact hre _ hts

theorem expand_dollar_unitP (pre m post : List Char) {u t : List Char} (hu : UnitP u)
    (hts : SafeS (expandRepl pre m post t)) :
    SafeS (expandRepl pre m post ('$' :: (u ++ t))) := by
  obtain ⟨hre, hd, _, c, u2, hcu, h1, h2, h3, h4, _⟩ := hu
  have hd2 : '$' ∉ u2 := fun hmem => hd (by rw [hcu]; simp [hmem])
  rw [hcu, List.cons_append, expand_dollar_cons pre m post u2 t h1 h2 h3 h4 hd2]
  have hback : c :: (u2 ++ expandRepl pre m post t) = u ++ expandRepl pre m post t := by
    rw [hcu]
    simp
  rw [hback]
  exact SafeS.plain '$' _ (by decide) (hre _ hts)

theorem ent_decomp : ∀ e ∈ entList,
    e = '&' :: e.tail ∧ ∀ c ∈ e.tail, specialChar c = false := by
  decide

theorem expand_safe (pre m post : List Char)
    (hpre : SafeS pre) (hm : SafeS m) (hpost : SafeS post) :
    ∀ (n : Nat) (repl : List Char), repl.length ≤ n → SafeS repl →
      SafeS (expandRepl pre m post repl) := by
  intro n
  induction n with
  | zero =>
    intro repl hl hs
    have h0 : repl = [] := List.eq_nil_of_length_eq_zero (Nat.le_zero.mp hl)
    subst h0
    simpa [expandRepl] using SafeS.nil
  | succ k ih =>
    intro repl hl hs
    cases hs with
    | nil => simpa [expandRepl] using SafeS.nil
    | plain c t hc hst =>
      by_cases hcd : c = '$'
      · subst hcd
        cases hst with
        | nil =>
          simp only [expandRepl]
          exact SafeS.plain '$' [] (by decide) SafeS.nil
        | plain c2 t2 hc2 hst2 =>
          by_cases h2 : c2 = '$'
          · subst h2
            rw [expand_dollar_dollar]
            refine SafeS.plain '$' _ (by decide) (ih t2 ?_ hst2)
            simp at hl
            omega
          · by_cases h3 : c2 = '&'
            · subst h3
              rw [expand_dollar_amp]
              refine SafeS_append hm (ih t2 ?_ hst2)
              simp at hl
              omega
            · by_cases h4 : c2 = btick
              · subst h4
                rw [expand_dollar_btick]
                refine SafeS_append hpre (ih t2 ?_ hst2)
                simp at hl
                omega
              · by_cases h5 : c2 = apos
                · exact absurd (h5 ▸ hc2) (by decide)
                · rw [expand_dollar_other pre m post t2 h2 h3 h4 h5]
                  refine SafeS.plain '$' _ (by decide) (SafeS.plain c2 _ hc2 (ih t2 ?_ hst2))
                  simp at hl
                  omega
        | ent e t2 he hst2 =>
          have hed := ent_decomp e he
          have hlE := congrArg List.length hed.1
          simp only [List.length_cons] at hlE
          rw [hed.1, List.cons_append, expand_dollar_amp]
          refine SafeS_append hm (ih (e.tail ++ t2) ?_ (prependPlain hed.2 hst2))
          rw [List.length_append]
          simp [List.length_append] at hl
          omega
        | vocab v t2 hv hst2 =>
          have hu := unitP_vocab hv
          refine expand_dollar_unitP pre m post hu (ih t2 ?_ hst2)
          have h1 := unitP_length hu
          simp [List.length_append] at hl
          omega
        | semList tag sa style t2 h1 h2 h3 hst2 =>
          have hu := unitP_semList h1 h2 h3
          refine expand_dollar_unitP pre m post hu (ih t2 ?_ hst2)
          have hlu := unitP_length hu
          simp [List.length_append] at hl
          simp [List.length_append] at hlu
          omega
        | divList cls tag sa t2 h1 h2 h3 hst2 =>
          have hu := unitP_divList h1 h2 h3
          refine expand_dollar_unitP pre m post hu (ih t2 ?_ hst2)
          have hlu := unitP_length hu
          simp [List.length_append] at hl
          simp [List.length_append] at hlu
          omega
        | liOpen va t2 h1 hst2 =>
          have hu := unitP_liOpen h1
          refine expand_dollar_unitP pre m post hu (ih t2 ?_ hst2)
          have hlu := unitP_length hu
          simp [List.length_append] at hl
          simp [List.length_append] at hlu
          omega
        | hOpen ds t2 h1 hst2 =>
          have hu := unitP_hOpen h1
          refine expand_dollar_unitP pre m post hu (ih t2 ?_ hst2)
          have hlu := unitP_length hu
          simp [List.length_append] at hl
          simp [List.length_append] at hlu
          omega
        | hClose ds t2 h1 hst2 =>
          have hu := unitP_hClose h1
          refine expand_dollar_unitP pre m post hu (ih t2 ?_ hst2)
          have hlu := unitP_length hu
          simp [List.length_append] at hl
          simp [List.length_append] at hlu
          omega
        | divHeading ds t2 h1 hst2 =>
          have hu := unitP_divHeading h1
          refine expand_dollar_unitP pre m post hu (ih t2 ?_ hst2)
          have hlu := unitP_length hu
          simp [List.length_append] at hl
          simp [List.length_append] at hlu
          omega
      · rw [expand_cons_ne pre m post t hcd]
        refine SafeS.plain c _ hc (ih t ?_ hst)
        simp at hl
        omega
    | ent e t he hst =>
      rw [expandRepl_passthru pre m post e t (ent_facts e he).2.1]
      have h1 := List.length_pos.mpr (ent_facts e he).1
      rw [List.length_append] at hl
      exact SafeS.ent e _ he (ih t (by omega) hst)
    | vocab v t hv hst =>
      have hu := unitP_vocab hv
      have hlu := unitP_length hu
      rw [List.length_append] at hl
      exact expand_unitP pre m post hu (ih t (by omega) hst)
    | semList tag sa style t h1 h2 h3 hst =>
      have hu := unitP_semList h1 h2 h3
      have hlu := unitP_length hu
      rw [List.length_append] at hl
      exact expand_unitP pre m post hu (ih t (by omega) hst)
    | divList cls tag sa t h1 h2 h3 hst =>
      have hu := unitP_divList h1 h2 h3
      have hlu := unitP_length hu
      rw [List.length_append] at hl
      exact expand_unitP pre m post hu (ih t (by omega) hst)
    | liOpen va t h1 hst =>
      have hu := unitP_liOpen h1
      have hlu := unitP_length hu
      rw [List.length_append] at hl
      exact expand_unitP pre m post hu (ih t (by omega) hst)
    | hOpen ds t h1 hst =>
      have hu := unitP_hOpen h1
      have hlu := unitP_length hu
      rw [List.length_append] at hl
      exact expand_unitP pre m post hu (ih t (by omega) hst)
    | hClose ds t h1 hst =>
      have hu := unitP_hClose h1
      have hlu := unitP_length hu
      rw [List.length_append] at hl
      exact expand_unitP pre m post hu (ih t (by omega) hst)
    | divHeading ds t h1 hst =>
      have hu := unitP_divHeading h1
      have hlu := unitP_length hu
      rw [List.length_append] at hl
      exact expand_unitP pre m post hu (ih t (by omega) hst)


/-! Injection safety, part 5: splitting a safe string at a placeholder
position and peeling token characters off a safe string. -/

theorem tokenChar_facts {c : Char} (h : tokenChar c = true) :
    specialChar c = false ∧ c ≠ '<' ∧ c ≠ '"' ∧ c ≠ '&' := by
  have h1 : c ≠ '<' := fun he => absurd (he ▸ h) (by decide)
  have h2 : c ≠ '"' := fun he => absurd (he ▸ h) (by decide)
  have h3 : c ≠ '&' := fun he => absurd (he ▸ h) (by decide)
  have h4 : c ≠ '>' := fun he => absurd (he ▸ h) (by decide)
  have h5 : c ≠ apos := fun he => absurd (he ▸ h) (by decide)
  exact ⟨by simp [specialChar, beq_iff_eq, h1, h2, h3, h4, h5], h1, h2, h3⟩

theorem SafeS_unit {u : List Char} (hu : UnitP u) : SafeS u := by
  have h := hu.1 [] SafeS.nil
  rwa [List.append_nil] at h

theorem SafeS_vocab_unit {v : List Char} (hv : v ∈ vocabList) : SafeS v :=
  SafeS_unit (unitP_vocab hv)

theorem split_unit_case {u t : List Char}
    (hrecon : ∀ r, SafeS r → SafeS (u ++ r)) (hd : '@' ∉ u) (ht : SafeS t)
    (ih : ∀ a b, t = a ++ b → b.head? = some '@' → SafeS a ∧ SafeS b) :
    ∀ a b, u ++ t = a ++ b → b.head? = some '@' → SafeS a ∧ SafeS b := by
  intro a b heq hb
  rcases List.append_eq_append_iff.mp heq with ⟨a2, h1, h2⟩ | ⟨c2, h1, h2⟩
  · obtain ⟨ha2, hb2⟩ := ih a2 b h2 hb
    exact ⟨h1 ▸ hrecon a2 ha2, hb2⟩
  · cases c2 with
    | nil =>
      rw [List.append_nil] at h1
      simp only [List.nil_append] at h2
      refine ⟨?_, h2 ▸ ht⟩
      have hsu : SafeS u := by
        have h := hrecon [] SafeS.nil
        rwa [List.append_nil] at h
      exact h1 ▸ hsu
    | cons c0 c2t =>
      exfalso
      rw [h2] at hb
      simp only [List.cons_append, List.head?_cons, Option.some.injEq] at hb
      apply hd
      rw [h1, ← hb]
      simp

theorem SafeS_split {s : List Char} (h : SafeS s) :
    ∀ a b, s = a ++ b → b.head? = some '@' → SafeS a ∧ SafeS b := by
  induction h with
  | nil =>
    intro a b he hb
    obtain ⟨_, hb0⟩ := (List.append_eq_nil.mp he.symm)
    rw [hb0] at hb
    simp at hb
  | plain c t hc ht ih =>
    intro a b he hb
    cases a with
    | nil =>
      simp only [List.nil_append] at he
      exact ⟨SafeS.nil, he ▸ SafeS.plain c t hc ht⟩
    | cons a0 a2 =>
      rw [List.cons_append] at he
      injection he with e1 e2
      obtain ⟨ha2, hb2⟩ := ih a2 b e2 hb
      exact ⟨SafeS.plain a0 a2 (e1 ▸ hc) ha2, hb2⟩
  | ent e t he2 ht ih =>
    exact split_unit_case (fun r hr => SafeS.ent e r he2 hr) (ent_facts e he2).2.2 ht ih
  | vocab v t hv ht ih =>
    exact split_unit_case (unitP_vocab hv).1 (unitP_vocab hv).2.2.1 ht ih
  | semList tag sa style t h1 h2 h3 ht ih =>
    exact split_unit_case (unitP_semList h1 h2 h3).1 (unitP_semList h1 h2 h3).2.2.1 ht ih
  | divList cls tag sa t h1 h2 h3 ht ih =>
    exact split_unit_case (unitP_divList h1 h2 h3).1 (unitP_divList h1 h2 h3).2.2.1 ht ih
  | liOpen va t h1 ht ih =>
    exact split_unit_case (unitP_liOpen h1).1 (unitP_liOpen h1).2.2.1 ht ih
  | hOpen ds t h1 ht ih =>
    exact split_unit_case (unitP_hOpen h1).1 (unitP_hOpen h1).2.2.1 ht ih
  | hClose ds t h1 ht ih =>
    exact split_unit_case (unitP_hClose h1).1 (unitP_hClose h1).2.2.1 ht ih
  | divHeading ds t h1 ht ih =>
    exact split_unit_case (unitP_divHeading h1).1 (unitP_divHeading h1).2.2.1 ht ih

theorem peel_unit_case {u t0 : List Char} (hu : UnitP u) {c : Char} {t : List Char}
    (heq : u ++ t0 = c :: t) (h1 : c ≠ '<') (h2 : c ≠ '"') : False := by
  obtain ⟨_, _, _, c0, u2, hcu, _, _, _, _, _, hor⟩ := hu
  rw [hcu, List.cons_append] at heq
  injection heq with e1 _
  rcases hor with h | h
  · exact h1 (by rw [← e1, h])
  · exact h2 (by rw [← e1, h])

theorem SafeS_peelAux {s : List Char} (h : SafeS s) :
    ∀ c t, s = c :: t → c ≠ '<' → c ≠ '"' → c ≠ '&' → SafeS t := by
  cases h with
  | nil =>
    intro c t he h1 h2 h3
    simp at he
  | plain c0 t0 hc ht =>
    intro c t he h1 h2 h3
    injection he with e1 e2
    exact e2 ▸ ht
  | ent e t0 he0 ht =>
    intro c t heq h1 h2 h3
    exfalso
    have hd := (ent_decomp e he0).1
    rw [hd, List.cons_append] at heq
    injection heq with e1 _
    exact h3 e1.symm
  | vocab v t0 hv ht =>
    intro c t heq h1 h2 h3
    exact absurd (peel_unit_case (unitP_vocab hv) heq h1 h2) not_false
  | semList tag sa style t0 ha hb hc ht =>
    intro c t heq h1 h2 h3
    exact absurd (peel_unit_case (unitP_semList ha hb hc) heq h1 h2) not_false
  | divList cls tag sa t0 ha hb hc ht =>
    intro c t heq h1 h2 h3
    exact absurd (peel_unit_case (unitP_divList ha hb hc) heq h1 h2) not_false
  | liOpen va t0 ha ht =>
    intro c t heq h1 h2 h3
    exact absurd (peel_unit_case (unitP_liOpen ha) heq h1 h2) not_false
  | hOpen ds t0 ha ht =>
    intro c t heq h1 h2 h3
    exact absurd (peel_unit_case (unitP_hOpen ha) heq h1 h2) not_false
  | hClose ds t0 ha ht =>
    intro c t heq h1 h2 h3
    exact absurd (peel_unit_case (unitP_hClose ha) heq h1 h2) not_false
  | divHeading ds t0 ha ht =>
    intro c t heq h1 h2 h3
    exact absurd (peel_unit_case (unitP_divHeading ha) heq h1 h2) not_false

theorem SafeS_peel {c : Char} {t : List Char} (h : SafeS (c :: t))
    (h1 : c ≠ '<') (h2 : c ≠ '"') (h3 : c ≠ '&') : SafeS t :=
  SafeS_peelAux h c t rfl h1 h2 h3

theorem SafeS_peel_tokens :
    ∀ (tok : List Char), (∀ c ∈ tok, tokenChar c = true) →
      ∀ {post : List Char}, SafeS (tok ++ post) → SafeS post := by
  intro tok
  induction tok with
  | nil =>
    intro _ post h
    simpa using h
  | cons c tok2 ih =>
    intro htok post h
    rw [List.cons_append] at h
    have hf := tokenChar_facts (htok c (by simp))
    exact ih (fun d hd => htok d (by simp [hd])) (SafeS_peel h hf.2.1 hf.2.2.1 hf.2.2.2)


/-! Injection safety, part 6: placeholder tokens are made of token
characters and the global replace of such a token by a safe replacement
preserves the grammar. -/

theorem digitChar_isDigit {n : Nat} (h : n < 10) : (digitChar n).isDigit = true := by
  interval_cases n <;> decide

theorem natToStrAux_digits : ∀ (f n : Nat), ∀ c ∈ natToStrAux f n, c.isDigit = true := by
  intro f
  induction f with
  | zero =>
    intro n c hc
    simp [natToStrAux] at hc
  | succ k ih =>
    intro n c hc
    rw [natToStrAux] at hc
    by_cases hn : n < 10
    · rw [if_pos hn] at hc
      simp at hc
      exact hc ▸ digitChar_isDigit hn
    · rw [if_neg hn] at hc
      rcases List.mem_append.mp hc with h | h
      · exact ih (n / 10) c h
      · simp at h
        exact h ▸ digitChar_isDigit (Nat.mod_lt n (by omega))

theorem natToStrAux_ne_nil (f n : Nat) : natToStrAux (f + 1) n ≠ [] := by
  rw [natToStrAux]
  by_cases hn : n < 10
  · rw [if_pos hn]
    simp
  · rw [if_neg hn]
    intro h
    have := (List.append_eq_nil.mp h).2
    simp at this

theorem natToStr_digits (n : Nat) : ∀ c ∈ natToStr n, c.isDigit = true :=
  natToStrAux_digits (n + 1) n

theorem natToStr_ne_nil (n : Nat) : natToStr n ≠ [] :=
  natToStrAux_ne_nil n n

theorem digitsOk_natToStr (n : Nat) : digitsOk (natToStr n) :=
  ⟨natToStr_ne_nil n, List.all_eq_true.mpr fun c hc => natToStr_digits n c hc⟩

theorem isDigit_tokenChar {c : Char} (h : c.isDigit = true) : tokenChar c = true := by
  simp [tokenChar, h]

theorem mdTok_head (i : Nat) : (mdTok i).head? = some '@' := by
  rw [mdTok]
  rfl

theorem mdphTok_head (i : Nat) : (mdphTok i).head? = some '@' := by
  rw [mdphTok]
  rfl

theorem mdTok_token (i : Nat) : ∀ c ∈ mdTok i, tokenChar c = true := by
  intro c hc
  rw [mdTok] at hc
  rcases List.mem_append.mp hc with h | h
  · rcases List.mem_append.mp h with h2 | h2
    · have hm : c ∈ ['@', '@', 'M', 'D'] := h2
      fin_cases hm <;> decide
    · exact isDigit_tokenChar (natToStr_digits i c h2)
  · have hm : c ∈ ['@', '@'] := h
    fin_cases hm <;> decide

theorem mdphTok_token (i : Nat) : ∀ c ∈ mdphTok i, tokenChar c = true := by
  intro c hc
  rw [mdphTok] at hc
  rcases List.mem_append.mp hc with h | h
  · rcases List.mem_append.mp h with h2 | h2
    · have hm : c ∈ ['@', '@', 'M', 'D', 'P', 'H'] := h2
      fin_cases hm <;> decide
    · exact isDigit_tokenChar (natToStr_digits i c h2)
  · have hm : c ∈ ['@', '@'] := h
    fin_cases hm <;> decide

theorem SafeS_of_tokens {u : List Char} (h : ∀ c ∈ u, tokenChar c = true) : SafeS u :=
  SafeS_plainList fun c hc => (tokenChar_facts (h c hc)).1

theorem SafeS_mdTok (i : Nat) : SafeS (mdTok i) :=
  SafeS_of_tokens (mdTok_token i)

theorem SafeS_mdphTok (i : Nat) : SafeS (mdphTok i) :=
  SafeS_of_tokens (mdphTok_token i)


theorem scan_safe {tok repl : List Char} (htokh : tok.head? = some '@')
    (htok : ∀ c ∈ tok, tokenChar c = true) (hrepl : SafeS repl) :
    ∀ (fuel : Nat) (rpre rest : List Char), SafeS (rpre.reverse ++ rest) →
      SafeS (rpre.reverse ++ replaceAllAux tok repl fuel rpre rest) := by
  intro fuel
  induction fuel with
  | zero =>
    intro rpre rest h
    simpa [replaceAllAux] using h
  | succ k ih =>
    intro rpre rest h
    by_cases hpre : tok.isPrefixOf rest
    · obtain ⟨post0, hpost0⟩ := List.isPrefixOf_iff_prefix.mp hpre
      have hdrop : rest.drop tok.length = post0 := by
        rw [← hpost0, List.drop_left]
      obtain ⟨tok2, htokeq⟩ : ∃ tok2, tok = '@' :: tok2 := by
        cases h0 : tok with
        | nil =>
          rw [h0] at htokh
          simp at htokh
        | cons t0 t2 =>
          rw [h0] at htokh
          simp only [List.head?_cons, Option.some.injEq] at htokh
          exact ⟨t2, by rw [htokh]⟩
      simp only [replaceAllAux, if_pos hpre, hdrop]
      rw [← hpost0] at h
      have hhd : ∀ X : List Char, (tok ++ X).head? = some '@' := by
        intro X
        rw [htokeq]
        rfl
      obtain ⟨hpreS, hrestS⟩ := SafeS_split h rpre.reverse (tok ++ post0) rfl (hhd post0)
      have hpostS := SafeS_peel_tokens tok htok hrestS
      have hexp : SafeS (expandRepl rpre.reverse tok post0 repl) :=
        expand_safe rpre.reverse tok post0 hpreS (SafeS_of_tokens htok) hpostS
          repl.length repl le_rfl hrepl
      have hrecinv : SafeS ((tok.reverse ++ rpre).reverse ++ post0) := by
        rw [List.reverse_append, List.reverse_reverse, List.append_assoc]
        exact h
      have ihres := ih (tok.reverse ++ rpre) post0 hrecinv
      rw [List.reverse_append, List.reverse_reverse, List.append_assoc] at ihres
      obtain ⟨_, hx⟩ := SafeS_split ihres rpre.reverse _ rfl (hhd _)
      have houtS := SafeS_peel_tokens tok htok hx
      exact SafeS_append hpreS (SafeS_append hexp houtS)
    · cases rest with
      | nil => simpa [replaceAllAux, hpre] using h
      | cons c t =>
        have hinv : SafeS ((c :: rpre).reverse ++ t) := by
          rw [List.reverse_cons, List.append_assoc]
          simpa using h
        have ihres := ih (c :: rpre) t hinv
        rw [List.reverse_cons, List.append_assoc] at ihres
        simp only [replaceAllAux, if_neg hpre]
        simpa using ihres

theorem replaceAll_safe {tok repl : List Char} (htokh : tok.head? = some '@')
    (htok : ∀ c ∈ tok, tokenChar c = true) (hrepl : SafeS repl)
    {subj : List Char} (hs : SafeS subj) : SafeS (replaceAll tok repl subj) := by
  have h := scan_safe htokh htok hrepl (subj.length + 1) [] subj (by simpa using hs)
  simpa [replaceAll] using h

theorem passKeysAux_safe : ∀ (phs : List (List Char)) (i : Nat) (e : List Char),
    SafeS e → SafeS (passKeysAux i phs e) := by
  intro phs
  induction phs with
  | nil =>
    intro i e he
    simpa [passKeysAux] using he
  | cons p rest ih =>
    intro i e he
    rw [passKeysAux]
    exact ih (i + 1) _ (replaceAll_safe (mdTok_head i) (mdTok_token i) (SafeS_mdphTok i) he)

theorem passHtmlAux_safe : ∀ (phs : List (List Char)) (i : Nat) (e : List Char),
    (∀ x ∈ phs, SafeS x) → SafeS e → SafeS (passHtmlAux i phs e) := by
  intro phs
  induction phs with
  | nil =>
    intro i e _ he
    simpa [passHtmlAux] using he
  | cons p rest ih =>
    intro i e hphs he
    rw [passHtmlAux]
    exact ih (i + 1) _ (fun x hx => hphs x (by simp [hx]))
      (replaceAll_safe (mdphTok_head i) (mdphTok_token i) (hphs p (by simp)) he)


/-! Injection safety, part 7: every fragment the scanners store is safe. -/

theorem SafeS_codeHtml (content : List Char) :
    SafeS ("<code>".data ++ escapeHtml content ++ "</code>".data) :=
  SafeS_append (SafeS_append (SafeS_vocab_unit (by decide)) (SafeS_escape content))
    (SafeS_vocab_unit (by decide))

theorem SafeS_linkHtml (href label : List Char) {inner : List Char → List Char}
    (hinner : ∀ v, SafeS (inner v)) :
    SafeS ("<a href=\"".data ++ escapeHtmlAttribute href ++
      "\" target=\"_blank\" rel=\"noopener noreferrer\">".data ++ inner label ++ "</a>".data) := by
  rw [escapeHtmlAttribute_eq]
  exact SafeS_append (SafeS_append (SafeS_append (SafeS_append
    (SafeS_vocab_unit (by decide)) (SafeS_escape href))
    (SafeS_vocab_unit (by decide))) (hinner label)) (SafeS_vocab_unit (by decide))

theorem scanCode_phs : ∀ (fuel : Nat) (rest : List Char) (phs : List (List Char)),
    (∀ x ∈ phs, SafeS x) → ∀ x ∈ (scanCode fuel rest phs).2, SafeS x := by
  intro fuel
  induction fuel with
  | zero =>
    intro rest phs hphs x hx
    simp [scanCode] at hx
    exact hphs x hx
  | succ k ih =>
    intro rest phs hphs x hx
    cases rest with
    | nil =>
      simp [scanCode] at hx
      exact hphs x hx
    | cons c t =>
      by_cases hc : c = btick
      · cases hsp : splitAtChar btick t with
        | none =>
          simp [scanCode, hc, hsp] at hx
          exact ih t phs hphs x hx
        | some p =>
          obtain ⟨content, rest2⟩ := p
          by_cases hcon : content = []
          · simp [scanCode, hc, hsp, hcon] at hx
            exact ih t phs hphs x hx
          · simp [scanCode, hc, hsp, hcon] at hx
            refine ih rest2 _ ?_ x hx
            intro y hy
            rcases List.mem_append.mp hy with h | h
            · exact hphs y h
            · simp at h
              exact h ▸ SafeS_codeHtml content
      · simp [scanCode, hc] at hx
        exact ih t phs hphs x hx

theorem scanLink_phs {inner : List Char → List Char} (hinner : ∀ v, SafeS (inner v)) :
    ∀ (fuel : Nat) (rest : List Char) (phs : List (List Char)),
      (∀ x ∈ phs, SafeS x) → ∀ x ∈ (scanLink inner fuel rest phs).2, SafeS x := by
  intro fuel
  induction fuel with
  | zero =>
    intro rest phs hphs x hx
    simp [scanLink] at hx
    exact hphs x hx
  | succ k ih =>
    intro rest phs hphs x hx
    cases rest with
    | nil =>
      simp [scanLink] at hx
      exact hphs x hx
    | cons c t =>
      by_cases hc : c = '['
      · cases hpt : parseLinkTail t with
        | none =>
          simp [scanLink, hc, hpt] at hx
          exact ih t phs hphs x hx
        | some p =>
          obtain ⟨label, href, rest2⟩ := p
          simp [scanLink, hc, hpt] at hx
          refine ih rest2 _ ?_ x hx
          intro y hy
          rcases List.mem_append.mp hy with h | h
          · exact hphs y h
          · simp at h
            rw [h]
            simpa using SafeS_linkHtml href label hinner
      · simp [scanLink, hc] at hx
        exact ih t phs hphs x hx

theorem scanDouble_phs {mark : Char} {openTag closeTag : List Char}
    (hopen : openTag ∈ vocabList) (hclose : closeTag ∈ vocabList)
    {inner : List Char → List Char} (hinner : ∀ v, SafeS (inner v)) :
    ∀ (fuel : Nat) (rest : List Char) (phs : List (List Char)),
      (∀ x ∈ phs, SafeS x) →
      ∀ x ∈ (scanDouble mark openTag closeTag inner fuel rest phs).2, SafeS x := by
  intro fuel
  induction fuel with
  | zero =>
    intro rest phs hphs x hx
    simp [scanDouble] at hx
    exact hphs x hx
  | succ k ih =>
    intro rest phs hphs x hx
    cases rest with
    | nil =>
      simp [scanDouble] at hx
      exact hphs x hx
    | cons c t =>
      by_cases hc : c = mark
      · cases t with
        | nil =>
          simp [scanDouble, hc] at hx
          exact hphs x hx
        | cons c2 t2 =>
          by_cases hc2 : c2 = mark
          · simp [scanDouble, hc, hc2] at hx
            split at hx
            · refine ih _ _ ?_ x hx
              intro y hy
              rcases List.mem_append.mp hy with h | h
              · exact hphs y h
              · simp at h
                rw [h]
                exact SafeS_append (SafeS_vocab_unit hopen)
                  (SafeS_append (hinner _) (SafeS_vocab_unit hclose))
            · exact ih _ _ hphs x hx
          · simp [scanDouble, hc, hc2] at hx
            exact ih _ _ hphs x hx
      · simp [scanDouble, hc] at hx
        exact ih _ _ hphs x hx

theorem scanSingle_phs {mark : Char} {openTag closeTag : List Char}
    (hopen : openTag ∈ vocabList) (hclose : closeTag ∈ vocabList)
    {inner : List Char → List Char} (hinner : ∀ v, SafeS (inner v)) :
    ∀ (fuel : Nat) (prev : Option Char) (rest : List Char) (phs : List (List Char)),
      (∀ x ∈ phs, SafeS x) →
      ∀ x ∈ (scanSingle mark openTag closeTag inner fuel prev rest phs).2, SafeS x := by
  intro fuel
  induction fuel with
  | zero =>
    intro prev rest phs hphs x hx
    simp [scanSingle] at hx
    exact hphs x hx
  | succ k ih =>
    intro prev rest phs hphs x hx
    cases rest with
    | nil =>
      simp [scanSingle] at hx
      exact hphs x hx
    | cons c t =>
      by_cases hc : c = mark ∧ prev ≠ some mark
      · simp [scanSingle, hc] at hx
        split at hx
        · refine ih _ _ _ ?_ x hx
          intro y hy
          rcases List.mem_append.mp hy with h | h
          · exact hphs y h
          · simp at h
            rw [h]
            exact SafeS_append (SafeS_vocab_unit hopen)
              (SafeS_append (hinner _) (SafeS_vocab_unit hclose))
        · exact ih _ _ _ hphs x hx
      · simp [scanSingle, hc] at hx
        exact ih _ _ _ hphs x hx


/-! Injection safety, part 8: the inline renderer always produces a safe
string. -/

theorem renderCore_safe {inner : List Char → List Char} (hinner : ∀ v, SafeS (inner v))
    (text : List Char) : SafeS (renderCore inner text) := by
  by_cases ht : jsTrim text = []
  · simp [renderCore, ht]
    exact SafeS.nil
  · simp only [renderCore, if_neg ht]
    apply passHtmlAux_safe
    · apply scanSingle_phs (by decide) (by decide) hinner
      apply scanSingle_phs (by decide) (by decide) hinner
      apply scanDouble_phs (by decide) (by decide) hinner
      apply scanDouble_phs (by decide) (by decide) hinner
      apply scanLink_phs hinner
      apply scanCode_phs
      intro x hx
      exact absurd hx (List.not_mem_nil x)
    · apply passKeysAux_safe
      exact SafeS_escape _

theorem renderInlineAux_safe : ∀ (gas : Nat) (text : List Char) (depth : Nat),
    SafeS (renderInlineAux gas text depth) := by
  intro gas
  induction gas with
  | zero =>
    intro text depth
    rw [renderInlineAux]
    exact SafeS_escape text
  | succ k ih =>
    intro text depth
    rw [renderInlineAux]
    refine renderCore_safe ?_ text
    intro v
    by_cases hd : depth < MAX_DEPTH
    · simpa [hd] using ih v (depth + 1)
    · simpa [hd] using SafeS_escape v

theorem renderInlineMarkdown_safe (text : List Char) : SafeS (renderInlineMarkdown text) := by
  rw [renderInlineMarkdown, renderInlineMarkdownD]
  exact renderInlineAux_safe 12 text 0


/-! Injection safety, part 9: the block renderers only emit safe fragments. -/

theorem listValueAttr_ok (ord : Bool) (o : Option Nat) (sv i : Nat) :
    valueAttrOk (listValueAttr ord o sv i) := by
  cases o with
  | none => exact Or.inl rfl
  | some v =>
    by_cases hc : ord = true ∧ v ≠ 0 ∧ v ≠ sv + i
    · refine Or.inr ⟨natToStr v, digitsOk_natToStr v, ?_⟩
      simp [listValueAttr, hc]
    · exact Or.inl (by simp [listValueAttr, hc])

theorem listStartAttr_ok (ord : Bool) (sv : Nat) : startAttrOk (listStartAttr ord sv) := by
  by_cases hc : ord = true ∧ sv ≠ 1
  · refine Or.inr ⟨natToStr sv, digitsOk_natToStr sv, ?_⟩
    simp [listStartAttr, hc]
  · exact Or.inl (by simp [listStartAttr, hc])

theorem SafeS_circleLi :
    SafeS "<ul style=\"list-style-type: circle; padding-left: 20px;\"><li>".data := by
  rw [show ("<ul style=\"list-style-type: circle; padding-left: 20px;\"><li>".data : List Char) =
    "<ul style=\"list-style-type: circle; padding-left: 20px;\">".data ++ "<li>".data from by decide]
  exact SafeS_append (SafeS_vocab_unit (by decide)) (SafeS_vocab_unit (by decide))

theorem SafeS_closeLiUl : SafeS "</li></ul>".data := by
  rw [show ("</li></ul>".data : List Char) = "</li>".data ++ "</ul>".data from by decide]
  exact SafeS_append (SafeS_vocab_unit (by decide)) (SafeS_vocab_unit (by decide))

theorem SafeS_brSep : SafeS "<br />\n".data := by
  rw [show ("<br />\n".data : List Char) = "<br />".data ++ "\n".data from by decide]
  exact SafeS_append (SafeS_vocab_unit (by decide)) (SafeS_plainList (by decide))

theorem joinSep_safe {sep : List Char} (hsep : SafeS sep) :
    ∀ (l : List (List Char)), (∀ x ∈ l, SafeS x) → SafeS (joinSep sep l) := by
  intro l
  induction l with
  | nil =>
    intro _
    rw [joinSep]
    exact SafeS.nil
  | cons x r ih =>
    intro hl
    cases r with
    | nil =>
      rw [joinSep]
      exact hl x (by simp)
    | cons y r2 =>
      rw [joinSep]
      exact SafeS_append (SafeS_append (hl x (by simp)) hsep)
        (ih (fun z hz => hl z (by simp [hz])))

theorem joinAll_safe : ∀ (l : List (List Char)), (∀ x ∈ l, SafeS x) → SafeS (joinAll l) := by
  intro l
  induction l with
  | nil =>
    intro _
    rw [joinAll]
    exact SafeS.nil
  | cons x r ih =>
    intro hl
    rw [joinAll]
    exact SafeS_append (hl x (by simp)) (ih fun z hz => hl z (by simp [hz]))

theorem semItemsLoop_safe (ord : Bool) (sv : Nat) :
    ∀ (n : Nat) (items : List (Option Nat × List Char)), items.length ≤ n →
      ∀ i, SafeS (semItemsLoop ord sv i items) := by
  intro n
  induction n with
  | zero =>
    intro items hl i
    have h0 : items = [] := List.eq_nil_of_length_eq_zero (Nat.le_zero.mp hl)
    rw [h0, semItemsLoop]
    exact SafeS.nil
  | succ k ih =>
    intro items hl i
    cases items with
    | nil =>
      rw [semItemsLoop]
      exact SafeS.nil
    | cons item rest =>
      cases rest with
      | nil =>
        simpa [semItemsLoop, List.append_assoc] using
          (unitP_liOpen (listValueAttr_ok ord item.1 sv i)).1 _
            (SafeS_append (renderInlineMarkdown_safe item.2)
              (SafeS_append (SafeS_vocab_unit (show "</li>".data ∈ vocabList from by decide))
                SafeS.nil))
      | cons next rest2 =>
        by_cases hcol : (!ord && colonSuffixTest (jsTrim item.2)) = true
        · have hrec := ih rest2 (by simp at hl; omega) (i + 2)
          simpa [semItemsLoop, List.append_assoc, hcol] using
            SafeS_append (SafeS_vocab_unit (show "<li>".data ∈ vocabList from by decide))
              (SafeS_append (renderInlineMarkdown_safe _)
                (SafeS_append SafeS_circleLi
                  (SafeS_append (renderInlineMarkdown_safe _)
                    (SafeS_append SafeS_closeLiUl
                      (SafeS_append
                        (SafeS_vocab_unit (show "</li>".data ∈ vocabList from by decide))
                        hrec)))))
        · have hrec := ih (next :: rest2) (by simp only [List.length_cons] at hl ⊢; omega) (i + 1)
          simpa [semItemsLoop, List.append_assoc, hcol] using
            (unitP_liOpen (listValueAttr_ok ord item.1 sv i)).1 _
              (SafeS_append (renderInlineMarkdown_safe item.2)
                (SafeS_append (SafeS_vocab_unit (show "</li>".data ∈ vocabList from by decide))
                  hrec))

theorem divItemsLoop_safe (ord : Bool) (sv : Nat) :
    ∀ (items : List (Option Nat × List Char)) (i : Nat),
      SafeS (divItemsLoop ord sv i items) := by
  intro items
  induction items with
  | nil =>
    intro i
    rw [divItemsLoop]
    exact SafeS.nil
  | cons item rest ih =>
    intro i
    simpa [divItemsLoop, List.append_assoc] using
      (unitP_liOpen (listValueAttr_ok ord item.1 sv i)).1 _
        (SafeS_append (renderInlineMarkdown_safe item.2)
          (SafeS_append (SafeS_vocab_unit (show "</li>".data ∈ vocabList from by decide))
            (ih (i + 1))))

theorem semListSegment_safe (ord : Bool) (items : List (Option Nat × List Char))
    (s : List Char) (h : semListSegment ord items = some s) : SafeS s := by
  by_cases ho : ord = true
  · subst ho
    simp only [semListSegment] at h
    split at h
    · exact absurd h (by simp)
    · have hs := Option.some.inj h
      subst hs
      simpa [List.append_assoc] using
        (unitP_semList (Or.inl rfl)
          (listStartAttr_ok true (listStartValue true items)) (Or.inl rfl)).1 _
          (SafeS_append
            (semItemsLoop_safe true (listStartValue true items)
              (items.filter nonEmptyItem).length (items.filter nonEmptyItem) le_rfl 0)
            (SafeS_vocab_unit (show "</ol>".data ∈ vocabList from by decide)))
  · have hof : ord = false := by simpa using ho
    subst hof
    simp only [semListSegment] at h
    split at h
    · exact absurd h (by simp)
    · have hs := Option.some.inj h
      subst hs
      simpa [List.append_assoc] using
        (unitP_semList (Or.inr rfl)
          (listStartAttr_ok false (listStartValue false items)) (Or.inr rfl)).1 _
          (SafeS_append
            (semItemsLoop_safe false (listStartValue false items)
              (items.filter nonEmptyItem).length (items.filter nonEmptyItem) le_rfl 0)
            (SafeS_vocab_unit (show "</ul>".data ∈ vocabList from by decide)))

theorem divListSegment_safe (ord : Bool) (items : List (Option Nat × List Char))
    (s : List Char) (h : divListSegment ord items = some s) : SafeS s := by
  by_cases ho : ord = true
  · subst ho
    simp only [divListSegment] at h
    split at h
    · exact absurd h (by simp)
    · have hs := Option.some.inj h
      subst hs
      simpa [List.append_assoc] using
        (unitP_divList (Or.inl rfl) (Or.inl rfl)
          (listStartAttr_ok true (listStartValue true items))).1 _
          (SafeS_append (divItemsLoop_safe true (listStartValue true items)
              (items.filter nonEmptyItem) 0)
            (SafeS_append (SafeS_vocab_unit (show "</ol>".data ∈ vocabList from by decide))
              (SafeS_vocab_unit (show "</div>".data ∈ vocabList from by decide))))
  · have hof : ord = false := by simpa using ho
    subst hof
    simp only [divListSegment] at h
    split at h
    · exact absurd h (by simp)
    · have hs := Option.some.inj h
      subst hs
      simpa [List.append_assoc] using
        (unitP_divList (Or.inr rfl) (Or.inr rfl)
          (listStartAttr_ok false (listStartValue false items))).1 _
          (SafeS_append (divItemsLoop_safe false (listStartValue false items)
              (items.filter nonEmptyItem) 0)
            (SafeS_append (SafeS_vocab_unit (show "</ul>".data ∈ vocabList from by decide))
              (SafeS_vocab_unit (show "</div>".data ∈ vocabList from by decide))))

theorem semParaSegment_safe (lines : List (List Char)) (s : List Char)
    (h : semParaSegment lines = some s) : SafeS s := by
  simp only [semParaSegment] at h
  split at h
  · exact absurd h (by simp)
  · have hs := Option.some.inj h
    subst hs
    have hjoin : SafeS (joinSep "<br />\n".data
        (((lines.map jsTrim).filter (fun l => !l.isEmpty)).map renderInlineMarkdown)) := by
      refine joinSep_safe SafeS_brSep _ ?_
      intro x hx
      obtain ⟨y, _, hy⟩ := List.mem_map.mp hx
      exact hy ▸ renderInlineMarkdown_safe y
    simpa [List.append_assoc] using
      SafeS_append (SafeS_vocab_unit (show "<p>".data ∈ vocabList from by decide))
        (SafeS_append hjoin (SafeS_vocab_unit (show "</p>".data ∈ vocabList from by decide)))

theorem divParaSegment_safe (lines : List (List Char)) (s : List Char)
    (h : divParaSegment lines = some s) : SafeS s := by
  simp only [divParaSegment] at h
  split at h
  · exact absurd h (by simp)
  · have hs := Option.some.inj h
    subst hs
    simpa [List.append_assoc] using
      SafeS_append
        (SafeS_vocab_unit (show "<div class=\"paragraph\">".data ∈ vocabList from by decide))
        (SafeS_append (renderInlineMarkdown_safe _)
          (SafeS_vocab_unit (show "</div>".data ∈ vocabList from by decide)))

theorem renderSemBlock_safe (b : Blk) (s : List Char) (h : renderSemBlock b = some s) :
    SafeS s := by
  cases b with
  | heading lvl content =>
    simp only [renderSemBlock] at h
    have hs := Option.some.inj h
    subst hs
    simpa [List.append_assoc] using
      (unitP_hOpen (digitsOk_natToStr lvl)).1 _
        (SafeS_append (renderInlineMarkdown_safe content)
          (SafeS_unit (unitP_hClose (digitsOk_natToStr lvl))))
  | para lines => exact semParaSegment_safe lines s h
  | list ord items => exact semListSegment_safe ord items s h
  | quote q =>
    simp only [renderSemBlock] at h
    have hs := Option.some.inj h
    subst hs
    simpa [List.append_assoc] using
      SafeS_append (SafeS_vocab_unit (show "<blockquote>".data ∈ vocabList from by decide))
        (SafeS_append (renderInlineMarkdown_safe q)
          (SafeS_vocab_unit (show "</blockquote>".data ∈ vocabList from by decide)))
  | divider =>
    simp only [renderSemBlock] at h
    have hs := Option.some.inj h
    subst hs
    exact SafeS_vocab_unit (by decide)

theorem renderDivBlock_safe (b : Blk) (s : List Char) (h : renderDivBlock b = some s) :
    SafeS s := by
  cases b with
  | heading lvl content =>
    simp only [renderDivBlock] at h
    have hs := Option.some.inj h
    subst hs
    simpa [List.append_assoc] using
      (unitP_divHeading (digitsOk_natToStr lvl)).1 _
        (SafeS_append (renderInlineMarkdown_safe content)
          (SafeS_vocab_unit (show "</div>".data ∈ vocabList from by decide)))
  | para lines => exact divParaSegment_safe lines s h
  | list ord items => exact divListSegment_safe ord items s h
  | quote q =>
    simp only [renderDivBlock] at h
    have hs := Option.some.inj h
    subst hs
    simpa [List.append_assoc] using
      SafeS_append
        (SafeS_vocab_unit (show "<div class=\"blockquote\">".data ∈ vocabList from by decide))
        (SafeS_append (renderInlineMarkdown_safe q)
          (SafeS_vocab_unit (show "</div>".data ∈ vocabList from by decide)))
  | divider =>
    simp only [renderDivBlock] at h
    have hs := Option.some.inj h
    subst hs
    exact SafeS_vocab_unit (by decide)


/-- C1: Injection safety.  For every input and for either profile
(markdownToHtml or markdownToDivHtml), the returned markup lies in the
safety grammar SafeS: it is a concatenation of non-special plain
characters, the five entity spellings produced by the Escaper, and the
renderer-emitted tag vocabulary whose attribute slots hold only digits or
fixed names.  In particular no input-derived special character (less-than,
greater-than, ampersand, double quote, apostrophe) ever appears unescaped
in the output: every literal markup character of the output comes from the
fixed vocabulary the renderer itself emits, and every special character of
the input survives only as its entity form. -/
theorem C1_injection_safety (input : Option String) :
    SafeOpt (markdownToHtml input) ∧ SafeOpt (markdownToDivHtml input) := by
  constructor
  · cases input with
    | none => trivial
    | some str =>
      rw [markdownToHtml]
      by_cases h : jsTrim str.data = []
      · rw [if_pos h]
        trivial
      · rw [if_neg h]
        show SafeS (joinAll ((segSem (splitLines str.data)).filterMap renderSemBlock))
        apply joinAll_safe
        intro x hx
        obtain ⟨b, _, hbs⟩ := List.mem_filterMap.mp hx
        exact renderSemBlock_safe b x hbs
  · cases input with
    | none => trivial
    | some str =>
      rw [markdownToDivHtml]
      by_cases h : jsTrim str.data = []
      · rw [if_pos h]
        trivial
      · rw [if_neg h]
        show SafeS (joinAll ((segDiv (splitLines str.data)).filterMap renderDivBlock))
        apply joinAll_safe
        intro x hx
        obtain ⟨b, _, hbs⟩ := List.mem_filterMap.mp hx
        exact renderDivBlock_safe b x hbs
end MD
